import Mathlib

/-!
# ncm-cest: the summary parser, the segment locator and the row parser of `reader.js`

A shallow embedding of `src/reader.js`.

* JavaScript strings are modelled by `String` (a sequence of Unicode scalar values); the only
  pattern of the program that is sensitive to UTF-16 code units (the `.` of the summary pattern)
  accounts for characters that occupy two code units.
* `undefined` (an array read past the end) is `none`.
* Functions of the host that are not part of the repository (`String.prototype.toUpperCase`,
  `String.prototype.toLowerCase`, lodash `deburr`) are fields of `Host`.
* The regular expressions used through `RegExp.prototype.test` are values of `Re`, decided by
  derivatives; `^` and `$` are rendered by the four test modes below.
* Line indices and counts are natural numbers. The two subtractions of the program never go
  below zero (`numberOfLinesToSkip_le_stop` for the trimmed end; the count of lines a row
  consumes is `4 + ... - 1`).
-/

namespace NcmCest

/-! ## Character classes -/

/-- The class `\d`. -/
def isDigit (c : Char) : Bool := decide ('0' ≤ c ∧ c ≤ '9')

/-- The class `[A-Z]`. -/
def isUpper (c : Char) : Bool := decide ('A' ≤ c ∧ c ≤ 'Z')

/-- The class `\s` of ECMAScript: white space and line terminators. -/
def isSpace (c : Char) : Bool :=
  c == '\t' || c == '\n' || c == '\x0b' || c == '\x0c' || c == '\r' || c == ' ' ||
  c == '\u00a0' || c == '\u1680' || decide ('\u2000' ≤ c ∧ c ≤ '\u200a') ||
  c == '\u2028' || c == '\u2029' || c == '\u202f' || c == '\u205f' || c == '\u3000' ||
  c == '\ufeff'

/-- The line terminators of ECMAScript, which `.` does not match. -/
def isLineTerminator (c : Char) : Bool :=
  c == '\n' || c == '\r' || c == '\u2028' || c == '\u2029'

/-- The character takes two UTF-16 code units in a JavaScript string. -/
def twoUnits (c : Char) : Bool := decide (0x10000 ≤ c.toNat)

/-- The `length` of a JavaScript string: its number of UTF-16 code units. -/
def codeUnits (s : String) : Nat :=
  (s.data.map (fun c => if twoUnits c then 2 else 1)).sum

/-! ## Regular expressions -/

/-- Regular expressions over characters, with character classes. -/
inductive Re where
  | never : Re
  | eps : Re
  | cls : (Char → Bool) → Re
  | seq : Re → Re → Re
  | alt : Re → Re → Re
  | star : Re → Re

namespace Re

/-- Whether the expression matches the empty string. -/
def nullable : Re → Bool
  | never => false
  | eps => true
  | cls _ => false
  | seq a b => a.nullable && b.nullable
  | alt a b => a.nullable || b.nullable
  | star _ => true

/-- Derivative of an expression by one character. -/
def deriv : Re → Char → Re
  | never, _ => never
  | eps, _ => never
  | cls p, c => if p c then eps else never
  | seq a b, c => if a.nullable then alt (seq (a.deriv c) b) (b.deriv c) else seq (a.deriv c) b
  | alt a b, c => alt (a.deriv c) (b.deriv c)
  | star a, c => seq (a.deriv c) (star a)

/-- The expression matches the whole of `s`. -/
def accepts : Re → List Char → Bool
  | r, [] => r.nullable
  | r, c :: cs => (r.deriv c).accepts cs

/-- The character `c`. -/
def chr (c : Char) : Re := cls (fun d => d == c)

/-- The characters of `cs` in sequence. -/
def lits : List Char → Re
  | [] => eps
  | c :: cs => seq (chr c) (lits cs)

/-- A literal text. -/
def lit (s : String) : Re := lits s.data

/-- The quantifier `+`. -/
def plus (r : Re) : Re := seq r (star r)

/-- The quantifier `?`. -/
def opt (r : Re) : Re := alt r eps

/-- The quantifier `{0,n}`. -/
def upTo : Nat → Re → Re
  | 0, _ => eps
  | n + 1, r => opt (seq r (upTo n r))

/-- Any run of characters: what lies before or after an unanchored match. -/
def skip : Re := star (cls (fun _ => true))

/-- The class `\d`. -/
def digit : Re := cls isDigit

/-- The language of an expression: the texts it matches as a whole. -/
def Lang : Re → List Char → Prop
  | never, _ => False
  | eps, s => s = []
  | cls p, s => ∃ c, s = [c] ∧ p c = true
  | seq a b, s => ∃ u v, s = u ++ v ∧ Lang a u ∧ Lang b v
  | alt a b, s => Lang a s ∨ Lang b s
  | star a, s => ∃ parts : List (List Char), s = parts.flatten ∧ ∀ u ∈ parts, Lang a u

/-- `/r/.test(s)`: a match anywhere in `s`. -/
def test (r : Re) (s : String) : Bool := (seq skip (seq r skip)).accepts s.data

/-- `/^r/.test(s)`: a match at the start of `s`. -/
def testStart (r : Re) (s : String) : Bool := (seq r skip).accepts s.data

/-- `/r$/.test(s)`: a match that ends at the end of `s`. -/
def testEnd (r : Re) (s : String) : Bool := (seq skip r).accepts s.data

/-- `/^r$/.test(s)`: a match of the whole of `s`. -/
def testWhole (r : Re) (s : String) : Bool := r.accepts s.data

end Re

/-! ## Host functions -/

/-- The functions of the JavaScript host and of lodash that `reader.js` calls on strings. -/
structure Host where
  toUpperCase : String → String
  toLowerCase : String → String
  deburr : String → String

/-! ## Row parser -/

/-- The object `takeSingleTableRow` returns; `item` and `cest` are array reads, `none` when the
read is past the end of the window. -/
structure TableRow where
  item : Option String
  cest : Option String
  ncms : List String
  description : String
  skip : Nat
  deriving DecidableEq

/-- `/^(Capítulos?)/` and `/^Capítulos?/`. -/
def capitulosRe : Re := Re.seq (Re.lit "Capítulo") (Re.opt (Re.chr 's'))

/-- `Array.prototype.join(' ')` on an array of strings. -/
def join : List String → String
  | [] => ""
  | [a] => a
  | a :: b :: rest => a ++ " " ++ join (b :: rest)

/-- `normalizeNcms` (reader.js 123-137). -/
def normalizeNcms (ncms : List String) : List String :=
  let ncms := ncms.filter (fun ncm => ncm.length != 0)
  if ncms.length = 0 then
    []
  else if Re.testStart capitulosRe (ncms.headD "") then
    [join ncms]
  else
    ncms

/-- `\d+\.\d+(?:\.\d+)?`, the first alternative of the first pattern of the `ncms` run. -/
def ncmCodeRe : Re :=
  Re.seq (Re.plus Re.digit) (Re.seq (Re.chr '.') (Re.seq (Re.plus Re.digit)
    (Re.opt (Re.seq (Re.chr '.') (Re.plus Re.digit)))))

/-- `\d+\,|a \d{2}`. -/
def rangeRe : Re :=
  Re.alt (Re.seq (Re.plus Re.digit) (Re.chr ','))
    (Re.seq (Re.lit "a ") (Re.seq Re.digit Re.digit))

/-- `(\d+\.\d+)+`, the body of `/^(\d+\.\d+)+$/`. -/
def markerRe : Re :=
  Re.plus (Re.seq (Re.plus Re.digit) (Re.seq (Re.chr '.') (Re.plus Re.digit)))

/-- The predicate of the `ncms` run (reader.js 149-160). -/
def isNcmLine (line : String) : Bool :=
  (Re.test ncmCodeRe line || Re.testWhole (Re.plus Re.digit) line) ||
  Re.testEnd (Re.seq (Re.plus Re.digit) (Re.chr '.')) line ||
  Re.test rangeRe line ||
  line == "" ||
  (Re.testStart capitulosRe line && Re.testEnd (Re.plus Re.digit) line)

/-- `/^(\d+\.\d+)+$/.test(line)`. -/
def isMarker (line : String) : Bool := Re.testWhole markerRe line

/-- `.replace(/\s{2,}/g, ' ')` on the characters of a string: the flag holds while the rest of
a run of two or more white-space characters, already replaced by one space, is consumed. -/
def collapse : Bool → List Char → List Char
  | _, [] => []
  | true, c :: cs => if isSpace c then collapse true cs else c :: collapse false cs
  | false, c :: cs =>
    if isSpace c && (cs.head?.map isSpace).getD false then ' ' :: collapse true cs
    else c :: collapse false cs

/-- `.replace(/\s{2,}/g, ' ')`. -/
def collapseSpaces (s : String) : String := ⟨collapse false s.data⟩

/-- `takeSingleTableRow` (reader.js 140-178); `none` is `null`. -/
def takeSingleTableRow (lines : List String) : Option TableRow :=
  if lines.length < 2 then
    none
  else
    let lines := if lines[0]? = some "" ∧ lines[1]? = some "" then lines.drop 1 else lines
    let ncms := (lines.drop 4).takeWhile isNcmLine
    let description := (lines.drop (4 + ncms.length)).takeWhile (fun line => !isMarker line)
    let numberOfLinesToSkip := 4 + ncms.length + description.length - 1
    some {
      item := lines[1]?
      cest := lines[3]?
      ncms := normalizeNcms ncms
      description := collapseSpaces (join (description.filter (fun line => line.length != 0)))
      skip := numberOfLinesToSkip }

/-- The window of `takeSingleTableRow` after its de-skewing step (reader.js 145-147). -/
def deskew (lines : List String) : List String :=
  if lines[0]? = some "" ∧ lines[1]? = some "" then lines.drop 1 else lines

/-- The run `ncms` of `takeSingleTableRow` (reader.js 149-160), from the de-skewed window. -/
def ncmsRun (lines : List String) : List String :=
  (lines.drop 4).takeWhile isNcmLine

/-- The run `description` of `takeSingleTableRow` (reader.js 162-164), from the de-skewed
window. -/
def descriptionRun (lines : List String) : List String :=
  (lines.drop (4 + (ncmsRun lines).length)).takeWhile (fun line => !isMarker line)

/-- How a call of `parseSegment` can fail to return rows. -/
inductive Fault where
  /-- Reading `skip` of `null`: a `TypeError` is thrown. -/
  | typeError : Fault
  /-- The bound on the iterations of the row loop was reached (never the case, see
  `parseSegment_ne_fuel`). -/
  | fuel : Fault
  deriving DecidableEq

deriving instance DecidableEq for Except

/-- The `for` loop of `parseSegment` (reader.js 192-201), `fuel` bounding its iterations. -/
def rowLoop : Nat → List String → Nat → List TableRow → Except Fault (List TableRow)
  | 0, _, _, _ => .error .fuel
  | fuel + 1, lines, offset, rows =>
    if offset < lines.length then
      match takeSingleTableRow (lines.drop offset) with
      | none => .ok rows
      | some row => rowLoop fuel lines (offset + row.skip) (rows ++ [row])
    else
      .ok rows

/-- `parseSegment` (reader.js 139-204). -/
def parseSegment (H : Host) (lines : List String) : Except Fault (List TableRow) :=
  let lines := (lines.dropWhile (fun line => H.toUpperCase line != "DESCRIÇÃO")).drop 1
  if lines.length = 0 then
    .ok []
  else
    match takeSingleTableRow lines with
    | none => .error .typeError
    | some firstRow => rowLoop (lines.length + 1) lines firstRow.skip [firstRow]

/-! ## Summary parser -/

/-- An entry of the summary: `{index, description}`. -/
structure SegmentSummary where
  index : String
  description : String
  deriving DecidableEq

/-- `line.match(/^(\d{2})\.\s+((?:[A-Z])(?:.[^\n]+))/)`, giving the two groups; `none` is `null`.
`\s+` is followed by `[A-Z]`, so it takes the whole run of white space. After the capital, `.`
takes one code unit that is no line terminator and `[^\n]+` at least one more code unit, up to
the first line feed: a character of two code units serves both. -/
def summaryMatch (line : String) : Option SegmentSummary :=
  match line.data with
  | d1 :: d2 :: dot :: rest =>
    if isDigit d1 && isDigit d2 && dot == '.' && (rest.head?.map isSpace).getD false then
      match rest.dropWhile isSpace with
      | u :: v :: tail =>
        let more := tail.takeWhile (fun c => c != '\n')
        if isUpper u && !isLineTerminator v && (twoUnits v || !more.isEmpty) then
          some { index := ⟨[d1, d2]⟩, description := ⟨u :: v :: more⟩ }
        else
          none
      | _ => none
    else
      none
  | _ => none

/-- `.[^\n]+` on characters: a character of one code unit that is no line terminator and then
one character or more other than the line feed, or a character of two code units (its first
unit for `.`, its second for `[^\n]+`) and then any characters other than the line feed. -/
def dotThenRestRe : Re :=
  Re.alt
    (Re.seq (Re.cls (fun c => !isLineTerminator c && !twoUnits c))
      (Re.plus (Re.cls (fun c => c != '\n'))))
    (Re.seq (Re.cls twoUnits) (Re.star (Re.cls (fun c => c != '\n'))))

/-- `(\d{2})\.\s+((?:[A-Z])(?:.[^\n]+))`, the body of the summary pattern, as an expression on
characters: `summaryMatch` is compared with it in `summaryMatch_isSome_iff`. -/
def summaryRe : Re :=
  Re.seq Re.digit (Re.seq Re.digit (Re.seq (Re.chr '.') (Re.seq (Re.plus (Re.cls isSpace))
    (Re.seq (Re.cls isUpper) dotThenRestRe))))

/-- `parseSegmentsSummary` (reader.js 10-21). -/
def parseSegmentsSummary (lines : List String) : List SegmentSummary :=
  (lines.filter (fun line => (summaryMatch line).isSome)).filterMap summaryMatch

/-! ## Segment locator -/

/-- A heading found in the body: `{segment, position}`. -/
structure Position where
  segment : String
  position : Nat
  deriving DecidableEq

/-- A span of lines: `{segment, start, end}`; `stop` is the field `end`. -/
structure Block where
  segment : String
  start : Nat
  stop : Nat
  deriving DecidableEq

/-- `_.deburr(s).toLowerCase()`. -/
def folded (H : Host) (s : String) : String := H.toLowerCase (H.deburr s)

/-- The positions of the headings (reader.js 58-69): for each segment in turn, the indices of the
lines that equal it once folded, index 0 left out. -/
def positions (H : Host) (segments lines : List String) : List Position :=
  segments.foldl (fun positions segment =>
    positions ++
      ((lines.enum.map (fun (index, line) =>
          if folded H line = folded H segment then
            some { segment := segment, position := index : Position }
          else
            none)).reduceOption.filter (fun position => position.position != 0))) []

/-- The provisional spans (reader.js 69-77). -/
def localized (lines : List String) (blocks : List Position) : List Block :=
  blocks.enum.map (fun (index, block) =>
    let stop := match blocks[index + 1]? with
      | some next => next.position
      | none => lines.length
    { segment := block.segment, start := min (block.position + 1) lines.length, stop := stop })

/-- `lines.slice(start, end)` for indices that are not negative. -/
def slice (lines : List String) (start stop : Nat) : List String :=
  (lines.take stop).drop start

/-- `_.takeRight(array, n)`. -/
def takeRight (n : Nat) (xs : List String) : List String := xs.drop (xs.length - n)

/-- `/Anexo (IX|IV|V?I{0,3})/`. -/
def anexoRe : Re :=
  Re.seq (Re.lit "Anexo ")
    (Re.alt (Re.lit "IX") (Re.alt (Re.lit "IV")
      (Re.seq (Re.opt (Re.chr 'V')) (Re.upTo 3 (Re.chr 'I')))))

/-- The count of trailing lines to leave out (reader.js 80-86): `maybe` is the last lines of the
span, last line first. -/
def numberOfLinesToSkip (maybe : List String) : Nat :=
  maybe.enum.foldl (fun numberOfLines (index, _) =>
    if Re.test anexoRe (join (maybe.take index)) then numberOfLines + 1 else numberOfLines) 0

/-- One step of the trimming of the spans (reader.js 77-93). -/
def revise (lines : List String) (block : Block) : Block :=
  let maybe := (takeRight 5 (slice lines block.start block.stop)).reverse
  { segment := block.segment, start := block.start,
    stop := block.stop - numberOfLinesToSkip maybe }

/-- One step of the fold keyed by segment (reader.js 93-99). The object is the list of its
entries in insertion order. The segments are descriptions of the summary, which begin with a
capital: no key is an inherited property of the object or the text of an integer. -/
def upsert (revised : List (String × Block)) (block : Block) : List (String × Block) :=
  let revised :=
    if (revised.lookup block.segment).isNone then revised ++ [(block.segment, block)]
    else revised
  revised.map (fun entry =>
    if entry.1 = block.segment then (entry.1, { entry.2 with stop := block.stop }) else entry)

/-- The object keyed by segment that `_.values` is applied to (reader.js 58-100). -/
def spans (H : Host) (segments lines : List String) : List (String × Block) :=
  (((localized lines (positions H segments lines)).map (revise lines)).foldl upsert [])

/-- `blocks` (reader.js 58-100): the values of the object, in insertion order. -/
def blocks (H : Host) (segments lines : List String) : List Block :=
  (spans H segments lines).map Prod.snd

/-- A row of the output: `_.omit(item, 'skip')` (reader.js 104). -/
structure OutputRow where
  item : Option String
  cest : Option String
  ncms : List String
  description : String
  deriving DecidableEq

/-- `_.omit(item, 'skip')`. -/
def omitSkip (row : TableRow) : OutputRow :=
  { item := row.item, cest := row.cest, ncms := row.ncms, description := row.description }

/-- The `map` of `parsed` over the spans, from left to right: a fault of `parseSegment` ends it
(reader.js 102-106). -/
def parsedFrom (H : Host) (lines : List String) :
    List Block → Except Fault (List (List OutputRow))
  | [] => .ok []
  | segment :: rest =>
    match parseSegment H (slice lines segment.start segment.stop) with
    | .error fault => .error fault
    | .ok rows =>
      match parsedFrom H lines rest with
      | .error fault => .error fault
      | .ok others => .ok (rows.map omitSkip :: others)

/-- `parsed` (reader.js 102-106): the rows of each located segment. -/
def parsed (H : Host) (segments lines : List String) : Except Fault (List (List OutputRow)) :=
  parsedFrom H lines (blocks H segments lines)

/-! ## A host for the examples -/

/-- Upper case of an ASCII letter or of one of the Latin-1 letters `à` to `þ`. -/
def upperChar (c : Char) : Char :=
  if ('a' ≤ c ∧ c ≤ 'z') ∨ ('\u00e0' ≤ c ∧ c ≤ '\u00fe' ∧ c ≠ '\u00f7') then
    Char.ofNat (c.toNat - 32)
  else c

/-- Lower case of an ASCII letter or of one of the Latin-1 letters `À` to `Þ`. -/
def lowerChar (c : Char) : Char :=
  if ('A' ≤ c ∧ c ≤ 'Z') ∨ ('\u00c0' ≤ c ∧ c ≤ '\u00de' ∧ c ≠ '\u00d7') then
    Char.ofNat (c.toNat + 32)
  else c

/-- A host for evaluating examples. Its case mappings are those of JavaScript on texts made of
ASCII characters and of the letters `À` to `Þ` and `à` to `þ`; its `deburr` is the identity, as
lodash `deburr` is on ASCII texts. -/
def exampleHost : Host where
  toUpperCase s := ⟨s.data.map upperChar⟩
  toLowerCase s := ⟨s.data.map lowerChar⟩
  deburr s := s

/-! # Theorems -/

/-! ## The derivative matcher decides the language -/

namespace Re

theorem nullable_iff (r : Re) : r.nullable = true ↔ Lang r [] := by
  induction r with
  | never => simp [nullable, Lang]
  | eps => simp [nullable, Lang]
  | cls p => simp [nullable, Lang]
  | seq a b iha ihb =>
    simp only [nullable, Lang, Bool.and_eq_true, iha, ihb]
    constructor
    · rintro ⟨h1, h2⟩
      exact ⟨[], [], rfl, h1, h2⟩
    · rintro ⟨u, v, h, h1, h2⟩
      obtain ⟨hu, hv⟩ := List.append_eq_nil.1 h.symm
      subst hu; subst hv
      exact ⟨h1, h2⟩
  | alt a b iha ihb => simp [nullable, Lang, iha, ihb]
  | star a _ =>
    simp only [nullable, Lang, true_iff]
    exact ⟨[], rfl, by simp⟩

theorem star_cons_iff (a : Re) (c : Char) (s : List Char) :
    Lang (star a) (c :: s) ↔ ∃ u v, s = u ++ v ∧ Lang a (c :: u) ∧ Lang (star a) v := by
  constructor
  · rintro ⟨parts, hs, hall⟩
    induction parts with
    | nil => simp at hs
    | cons p ps ih =>
      cases p with
      | nil =>
        simp only [List.flatten, List.nil_append] at hs
        exact ih hs (fun u hu => hall u (List.mem_cons_of_mem _ hu))
      | cons d u =>
        simp only [List.flatten, List.cons_append, List.cons.injEq] at hs
        obtain ⟨hd, hs⟩ := hs
        subst hd
        exact ⟨u, ps.flatten, hs, hall _ (List.mem_cons_self _ _),
          ps, rfl, fun w hw => hall w (List.mem_cons_of_mem _ hw)⟩
  · rintro ⟨u, v, hs, hu, parts, hv, hall⟩
    refine ⟨(c :: u) :: parts, by simp [hs, hv], ?_⟩
    intro w hw
    rcases List.mem_cons.1 hw with h | h
    · exact h ▸ hu
    · exact hall w h

theorem seq_cons_iff (a b : Re) (c : Char) (s : List Char) :
    Lang (seq a b) (c :: s) ↔
      (∃ u v, s = u ++ v ∧ Lang a (c :: u) ∧ Lang b v) ∨ (Lang a [] ∧ Lang b (c :: s)) := by
  constructor
  · rintro ⟨u, v, h, hu, hv⟩
    cases u with
    | nil =>
      simp only [List.nil_append] at h
      exact Or.inr ⟨hu, h ▸ hv⟩
    | cons d u =>
      simp only [List.cons_append, List.cons.injEq] at h
      obtain ⟨hd, h⟩ := h
      subst hd
      exact Or.inl ⟨u, v, h, hu, hv⟩
  · rintro (⟨u, v, h, hu, hv⟩ | ⟨hu, hv⟩)
    · exact ⟨c :: u, v, by simp [h], hu, hv⟩
    · exact ⟨[], c :: s, rfl, hu, hv⟩

theorem deriv_iff (r : Re) (c : Char) (s : List Char) :
    Lang (r.deriv c) s ↔ Lang r (c :: s) := by
  induction r generalizing s with
  | never => simp [deriv, Lang]
  | eps => simp [deriv, Lang]
  | cls p =>
    by_cases hp : p c = true
    · simp only [deriv, hp, if_true, Lang]
      constructor
      · intro h
        exact ⟨c, by rw [h], hp⟩
      · rintro ⟨d, h, _⟩
        exact (List.cons.inj h).2
    · simp only [deriv, hp, Lang, false_iff]
      rintro ⟨d, h, hd⟩
      exact hp ((List.cons.inj h).1 ▸ hd)
  | seq a b iha ihb =>
    rw [seq_cons_iff]
    by_cases hn : a.nullable = true
    · have h0 := (nullable_iff a).1 hn
      simp only [deriv, hn, if_true]
      show (Lang (seq (a.deriv c) b) s ∨ Lang (b.deriv c) s) ↔ _
      rw [ihb]
      show ((∃ u v, s = u ++ v ∧ Lang (a.deriv c) u ∧ Lang b v) ∨ _) ↔ _
      simp only [iha, h0, true_and]
    · have h0 := mt (nullable_iff a).2 hn
      simp only [deriv, hn]
      show (∃ u v, s = u ++ v ∧ Lang (a.deriv c) u ∧ Lang b v) ↔ _
      simp only [iha, h0, false_and, or_false]
  | alt a b iha ihb =>
    show (Lang (a.deriv c) s ∨ Lang (b.deriv c) s) ↔ (Lang a (c :: s) ∨ Lang b (c :: s))
    rw [iha, ihb]
  | star a iha =>
    rw [star_cons_iff]
    show (∃ u v, s = u ++ v ∧ Lang (a.deriv c) u ∧ Lang (star a) v) ↔ _
    simp only [iha]

/-- The derivative matcher decides the language. -/
theorem accepts_iff (r : Re) (s : List Char) : r.accepts s = true ↔ Lang r s := by
  induction s generalizing r with
  | nil => exact nullable_iff r
  | cons c s ih => rw [accepts, ih, deriv_iff]


theorem lang_skip (s : List Char) : Lang skip s := by
  refine ⟨s.map (fun c => [c]), ?_, ?_⟩
  · induction s with
    | nil => rfl
    | cons c s ih => simp [List.flatten, ← ih]
  · intro u hu
    obtain ⟨c, _, rfl⟩ := List.mem_map.1 hu
    exact ⟨c, rfl, rfl⟩

theorem lang_lits (cs s : List Char) : Lang (lits cs) s ↔ s = cs := by
  induction cs generalizing s with
  | nil => simp [lits, Lang]
  | cons c cs ih =>
    simp only [lits, chr, Lang, ih]
    constructor
    · rintro ⟨u, v, rfl, ⟨d, rfl, hd⟩, rfl⟩
      simp at hd
      simp [hd]
    · rintro rfl
      exact ⟨[c], cs, rfl, ⟨c, rfl, by simp⟩, rfl⟩

theorem test_iff (r : Re) (s : String) :
    test r s = true ↔ ∃ u m v, s.data = u ++ m ++ v ∧ Lang r m := by
  unfold test
  rw [accepts_iff]
  constructor
  · rintro ⟨u, w, h, _, m, v, rfl, hm, _⟩
    exact ⟨u, m, v, by simp [h], hm⟩
  · rintro ⟨u, m, v, h, hm⟩
    exact ⟨u, m ++ v, by simp [h], lang_skip u, m, v, rfl, hm, lang_skip v⟩

theorem testStart_iff (r : Re) (s : String) :
    testStart r s = true ↔ ∃ m v, s.data = m ++ v ∧ Lang r m := by
  unfold testStart
  rw [accepts_iff]
  constructor
  · rintro ⟨m, v, h, hm, _⟩
    exact ⟨m, v, h, hm⟩
  · rintro ⟨m, v, h, hm⟩
    exact ⟨m, v, h, hm, lang_skip v⟩

theorem testEnd_iff (r : Re) (s : String) :
    testEnd r s = true ↔ ∃ u m, s.data = u ++ m ∧ Lang r m := by
  unfold testEnd
  rw [accepts_iff]
  constructor
  · rintro ⟨u, m, h, _, hm⟩
    exact ⟨u, m, h, hm⟩
  · rintro ⟨u, m, h, hm⟩
    exact ⟨u, m, h, lang_skip u, hm⟩

theorem testWhole_iff (r : Re) (s : String) : testWhole r s = true ↔ Lang r s.data :=
  accepts_iff r s.data

end Re

/-- `/^(Capítulos?)/.test(s)` holds exactly when `s` starts with `Capítulo`. -/
theorem testStart_capitulosRe (s : String) :
    Re.testStart capitulosRe s = true ↔ "Capítulo".data <+: s.data := by
  rw [Re.testStart_iff]
  constructor
  · rintro ⟨m, v, h, a, b, rfl, ha, _⟩
    rw [Re.lit, Re.lang_lits] at ha
    subst ha
    exact ⟨b ++ v, by simp [h]⟩
  · rintro ⟨t, ht⟩
    exact ⟨"Capítulo".data, t, ht.symm, "Capítulo".data, [], by simp,
      (Re.lang_lits _ _).2 rfl, Or.inr rfl⟩

/-- `/Anexo (IX|IV|V?I{0,3})/.test(s)` holds exactly when `s` contains `Anexo `: the third
alternative matches the empty text. -/
theorem test_anexoRe (s : String) :
    Re.test anexoRe s = true ↔ "Anexo ".data <:+: s.data := by
  rw [Re.test_iff]
  constructor
  · rintro ⟨u, m, v, h, a, b, rfl, ha, _⟩
    rw [Re.lit, Re.lang_lits] at ha
    subst ha
    exact ⟨u, b ++ v, by simp [h]⟩
  · rintro ⟨u, v, h⟩
    refine ⟨u, "Anexo ".data, v, h.symm, "Anexo ".data, [], by simp,
      (Re.lang_lits _ _).2 rfl, Or.inr (Or.inr ?_)⟩
    exact ⟨[], [], rfl, Or.inr rfl, Or.inr rfl⟩

theorem join_cons_data (x : String) (xs : List String) :
    x.data <+: (join (x :: xs)).data := by
  cases xs with
  | nil => exact List.prefix_refl _
  | cons y ys => exact ⟨(" " ++ join (y :: ys)).data, by simp [join, String.append_assoc]⟩



/-! ## Joining lines -/

theorem intercalate_go (acc : String) (xs : List String) :
    String.intercalate.go acc " " xs = if xs = [] then acc else acc ++ " " ++ join xs := by
  induction xs generalizing acc with
  | nil => rfl
  | cons a as ih =>
    rw [String.intercalate.go, ih]
    cases as with
    | nil => simp [join]
    | cons b r => simp [join, String.append_assoc]

theorem join_eq_intercalate (xs : List String) : join xs = " ".intercalate xs := by
  cases xs with
  | nil => rfl
  | cons a as =>
    rw [String.intercalate, intercalate_go]
    cases as with
    | nil => simp [join]
    | cons b r => simp [join, String.append_assoc]

theorem length_eq_zero_iff (s : String) : s.length = 0 ↔ s = "" := by
  rw [String.length, List.length_eq_zero, String.ext_iff]

/-- The trim count over the examined lines, as a fold from index `k` on. -/
theorem foldl_enumFrom_skip (maybe xs : List String) (k n : Nat)
    (h : ∀ i, k ≤ i → Re.test anexoRe (join (maybe.take i)) = true) :
    (xs.enumFrom k).foldl (fun numberOfLines (x : Nat × String) =>
      if Re.test anexoRe (join (maybe.take x.1)) then numberOfLines + 1 else numberOfLines) n
      = n + xs.length := by
  induction xs generalizing k n with
  | nil => rfl
  | cons x xs ih =>
    simp only [List.enumFrom, List.foldl, h k (le_refl k), if_true, List.length_cons]
    rw [ih (k + 1) (n + 1) (fun i hi => h i (by omega))]
    omega

/-- When the last line of a span contains `Anexo `, every step but the first counts. -/
theorem numberOfLinesToSkip_cons (last : String) (rest : List String)
    (h : "Anexo ".data <:+: last.data) :
    numberOfLinesToSkip (last :: rest) = rest.length := by
  have h0 : Re.test anexoRe (join []) = false := by decide
  have hi : ∀ i, 1 ≤ i → Re.test anexoRe (join ((last :: rest).take i)) = true := by
    intro i hi
    obtain ⟨j, rfl⟩ : ∃ j, i = j + 1 := ⟨i - 1, by omega⟩
    rw [List.take_succ_cons, test_anexoRe]
    exact List.IsInfix.trans h (join_cons_data _ _).isInfix
  have := foldl_enumFrom_skip (last :: rest) rest 1 0 hi
  simp only [numberOfLinesToSkip, List.enum, List.enumFrom, List.foldl, List.take_zero, h0]
  simpa using this

/-! ## The keyed fold -/

theorem lookup_append_singleton (l : List (String × Block)) (k s : String) (b : Block) :
    (l ++ [(k, b)]).lookup s = (l.lookup s).orElse (fun _ => if s = k then some b else none) := by
  induction l with
  | nil =>
    by_cases h : s = k
    · subst h; simp [List.lookup]
    · have : (s == k) = false := by simpa using h
      simp [List.lookup, this, h]
  | cons e l ih =>
    obtain ⟨k', b'⟩ := e
    by_cases h : s = k'
    · subst h; simp [List.lookup]
    · have : (s == k') = false := by simpa using h
      simp [List.lookup, this, ih]

theorem lookup_map_stop (l : List (String × Block)) (k s : String) (n : Nat) :
    (l.map (fun entry =>
      if entry.1 = k then (entry.1, { entry.2 with stop := n }) else entry)).lookup s
      = if s = k then (l.lookup s).map (fun b => { b with stop := n }) else l.lookup s := by
  induction l with
  | nil => simp [List.lookup]
  | cons e l ih =>
    obtain ⟨k', b'⟩ := e
    rw [List.map_cons, List.lookup_cons, ih]
    by_cases hk : k' = k
    · rw [if_pos hk, List.lookup_cons]
      by_cases h : s = k'
      · have h1 : (s == k') = true := by simpa using h
        simp [h1, h, hk]
      · have h1 : (s == k') = false := by simpa using h
        simp [h1]
    · rw [if_neg hk, List.lookup_cons]
      by_cases h : s = k'
      · have h1 : (s == k') = true := by simpa using h
        have h2 : ¬ s = k := fun h3 => hk (h ▸ h3)
        simp [h1, h2]
      · have h1 : (s == k') = false := by simpa using h
        simp [h1]

/-- What `upsert` stores under each key. -/
theorem lookup_upsert (acc : List (String × Block)) (b : Block) (s : String) :
    (upsert acc b).lookup s =
      if s = b.segment then
        some (match acc.lookup s with
          | some e => { e with stop := b.stop }
          | none => b)
      else acc.lookup s := by
  unfold upsert
  simp only [lookup_map_stop]
  by_cases hs : s = b.segment
  · subst hs
    cases hl : acc.lookup b.segment with
    | none => simp [hl, lookup_append_singleton]
    | some e => simp [hl]
  · simp only [hs, if_false]
    cases hl : acc.lookup b.segment with
    | none =>
      simp only [Option.isNone_none, if_true, lookup_append_singleton, hs, if_false]
      cases acc.lookup s <;> rfl
    | some e => simp

/-- The fold keeps, for each key, the first block stored and the `stop` of the last one. -/
theorem lookup_foldl_upsert (rs : List Block) (acc : List (String × Block)) (s : String) :
    (rs.foldl upsert acc).lookup s =
      match rs.reverse.find? (fun b => b.segment == s) with
      | none => acc.lookup s
      | some l =>
        match acc.lookup s with
        | some e => some { e with stop := l.stop }
        | none => (rs.find? (fun b => b.segment == s)).map (fun f => { f with stop := l.stop }) := by
  induction rs generalizing acc with
  | nil => simp
  | cons b rs ih =>
    rw [List.foldl_cons, ih, List.reverse_cons, List.find?_append, lookup_upsert]
    by_cases hb : s = b.segment
    · subst hb
      cases hr : rs.reverse.find? (fun x => x.segment == b.segment) with
      | none =>
        cases hl : acc.lookup b.segment <;> simp [hl]
      | some l =>
        cases hl : acc.lookup b.segment <;> simp [hl]
    · have hb' : (b.segment == s) = false := by simpa using (Ne.symm hb)
      cases hr : rs.reverse.find? (fun x => x.segment == s) with
      | none => simp [hb, hb', List.find?]
      | some l => simp [hb, hb', List.find?]



/-! ## Positions -/

theorem mem_foldl_append {α β : Type} (f : β → List α) (xs : List β) (acc : List α) (a : α) :
    a ∈ xs.foldl (fun acc x => acc ++ f x) acc ↔ a ∈ acc ∨ ∃ x ∈ xs, a ∈ f x := by
  induction xs generalizing acc with
  | nil => simp
  | cons x xs ih =>
    rw [List.foldl_cons, ih, List.mem_append]
    simp only [List.mem_cons, exists_eq_or_imp]
    tauto

/-- The headings found: a segment of the list and a line of positive index that equals it once
folded. -/
theorem mem_positions (H : Host) (segments lines : List String) (p : Position) :
    p ∈ positions H segments lines ↔
      p.segment ∈ segments ∧ p.position ≠ 0 ∧
        ∃ line, lines[p.position]? = some line ∧ folded H line = folded H p.segment := by
  unfold positions
  rw [mem_foldl_append]
  simp only [List.not_mem_nil, false_or, List.mem_filter, List.reduceOption_mem_iff,
    List.mem_map, Prod.exists, List.mk_mem_enum_iff_getElem?]
  constructor
  · rintro ⟨seg, hseg, ⟨i, line, hl, hp⟩, hne⟩
    by_cases hf : folded H line = folded H seg
    · rw [if_pos hf] at hp
      cases Option.some.inj hp
      exact ⟨hseg, by simpa using hne, line, hl, hf⟩
    · rw [if_neg hf] at hp
      cases hp
  · rintro ⟨hseg, hne, line, hl, hf⟩
    exact ⟨p.segment, hseg, ⟨p.position, line, hl, by rw [if_pos hf]⟩, by simpa using hne⟩

/-! ## Provisional spans -/

theorem getElem?_localized (lines : List String) (ps : List Position) (i : Nat) :
    (localized lines ps)[i]? = ps[i]?.map (fun p =>
      { segment := p.segment, start := min (p.position + 1) lines.length,
        stop := match ps[i + 1]? with
          | some next => next.position
          | none => lines.length }) := by
  unfold localized
  rw [List.getElem?_map, List.getElem?_enum]
  cases ps[i]? <;> rfl

theorem length_localized (lines : List String) (ps : List Position) :
    (localized lines ps).length = ps.length := by
  simp [localized]



/-! ## Trimming -/

theorem foldl_enumFrom_le (p : Nat → Bool) (xs : List String) (k n : Nat) :
    (xs.enumFrom k).foldl (fun numberOfLines (x : Nat × String) =>
      if p x.1 then numberOfLines + 1 else numberOfLines) n ≤ n + xs.length := by
  induction xs generalizing k n with
  | nil => exact le_refl n
  | cons x xs ih =>
    simp only [List.enumFrom, List.foldl, List.length_cons]
    by_cases h : p k = true
    · rw [if_pos h]
      exact le_trans (ih (k + 1) (n + 1)) (by omega)
    · rw [if_neg h]
      exact le_trans (ih (k + 1) n) (by omega)

/-- The trim count is at most the number of examined lines less one: the first step tests the
empty text. -/
theorem numberOfLinesToSkip_le (maybe : List String) :
    numberOfLinesToSkip maybe ≤ maybe.length - 1 := by
  cases maybe with
  | nil => simp [numberOfLinesToSkip]
  | cons x xs =>
    have h0 : Re.test anexoRe (join []) = false := by decide
    have := foldl_enumFrom_le (fun i => Re.test anexoRe (join ((x :: xs).take i))) xs 1 0
    simp only [numberOfLinesToSkip, List.enum, List.enumFrom, List.foldl, List.take_zero, h0]
    simpa using this

theorem length_slice (lines : List String) (start stop : Nat) :
    (slice lines start stop).length = min stop lines.length - start := by
  simp [slice]

theorem length_takeRight (n : Nat) (xs : List String) :
    (takeRight n xs).length = min n xs.length := by
  simp [takeRight]; omega

theorem revise_segment (lines : List String) (b : Block) : (revise lines b).segment = b.segment :=
  rfl

theorem revise_start (lines : List String) (b : Block) : (revise lines b).start = b.start := rfl

theorem revise_stop_le (lines : List String) (b : Block) : (revise lines b).stop ≤ b.stop :=
  Nat.sub_le _ _

/-- Trimming keeps the end of a span at or after its start. -/
theorem le_revise_stop (lines : List String) (b : Block) (h : b.start ≤ b.stop) :
    b.start ≤ (revise lines b).stop := by
  have h1 := numberOfLinesToSkip_le (takeRight 5 (slice lines b.start b.stop)).reverse
  rw [List.length_reverse, length_takeRight, length_slice] at h1
  show b.start ≤ b.stop - numberOfLinesToSkip _
  omega

/-- The subtraction of `revise` never goes below zero. -/
theorem numberOfLinesToSkip_le_stop (lines : List String) (b : Block) :
    numberOfLinesToSkip (takeRight 5 (slice lines b.start b.stop)).reverse ≤ b.stop := by
  have h1 := numberOfLinesToSkip_le (takeRight 5 (slice lines b.start b.stop)).reverse
  rw [List.length_reverse, length_takeRight, length_slice] at h1
  omega

/-! ## The keyed fold, by membership -/

theorem mem_upsert (acc : List (String × Block)) (b : Block) (e : String × Block)
    (he : e ∈ upsert acc b) :
    (e ∈ acc ∧ e.1 ≠ b.segment) ∨
      (∃ e0, (e0 ∈ acc ∨ e0 = (b.segment, b)) ∧ e = (e0.1, { e0.2 with stop := b.stop })) := by
  unfold upsert at he
  obtain ⟨e0, he0, rfl⟩ := List.mem_map.1 he
  have hmem : e0 ∈ acc ∨ e0 = (b.segment, b) := by
    by_cases hn : (acc.lookup b.segment).isNone = true
    · rw [if_pos hn] at he0
      simpa using he0
    · rw [if_neg hn] at he0
      exact Or.inl he0
  by_cases hk : e0.1 = b.segment
  · rw [if_pos hk]
    exact Or.inr ⟨e0, hmem, rfl⟩
  · rw [if_neg hk]
    rcases hmem with h | h
    · exact Or.inl ⟨h, hk⟩
    · exact absurd (by rw [h]) hk

/-- Bounds that hold of every block hold of every stored span. -/
theorem foldl_upsert_bounds (A B : Nat → Prop) (rs : List Block) (acc : List (String × Block))
    (hacc : ∀ e ∈ acc, A e.2.start ∧ B e.2.stop) (hrs : ∀ b ∈ rs, A b.start ∧ B b.stop) :
    ∀ e ∈ rs.foldl upsert acc, A e.2.start ∧ B e.2.stop := by
  induction rs generalizing acc with
  | nil => exact hacc
  | cons b rs ih =>
    rw [List.foldl_cons]
    apply ih
    · intro e he
      rcases mem_upsert acc b e he with ⟨h, _⟩ | ⟨e0, h0, rfl⟩
      · exact hacc e h
      · rcases h0 with h0 | h0
        · exact ⟨(hacc e0 h0).1, (hrs b (List.mem_cons_self _ _)).2⟩
        · subst h0
          exact hrs b (List.mem_cons_self _ _)
    · exact fun x hx => hrs x (List.mem_cons_of_mem _ hx)

/-- When the starts of the blocks never decrease and no block ends before its start, no stored
span ends before its start. -/
theorem foldl_upsert_le (rs : List Block) (acc : List (String × Block))
    (hsorted : rs.Pairwise (fun a b => a.start ≤ b.start))
    (hrs : ∀ b ∈ rs, b.start ≤ b.stop)
    (hacc : ∀ e ∈ acc, e.2.start ≤ e.2.stop ∧ ∀ b ∈ rs, e.2.start ≤ b.start) :
    ∀ e ∈ rs.foldl upsert acc, e.2.start ≤ e.2.stop := by
  induction rs generalizing acc with
  | nil => exact fun e he => (hacc e he).1
  | cons b rs ih =>
    rw [List.foldl_cons]
    rw [List.pairwise_cons] at hsorted
    apply ih _ hsorted.2 (fun x hx => hrs x (List.mem_cons_of_mem _ hx))
    intro e he
    rcases mem_upsert acc b e he with ⟨h, _⟩ | ⟨e0, h0, rfl⟩
    · exact ⟨(hacc e h).1, fun x hx => (hacc e h).2 x (List.mem_cons_of_mem _ hx)⟩
    · rcases h0 with h0 | h0
      · refine ⟨le_trans ((hacc e0 h0).2 b (List.mem_cons_self _ _))
          (hrs b (List.mem_cons_self _ _)), fun x hx => (hacc e0 h0).2 x (List.mem_cons_of_mem _ hx)⟩
      · subst h0
        exact ⟨hrs b (List.mem_cons_self _ _), fun x hx => hsorted.1 x hx⟩

/-- The keys of the fold: those of the accumulator and the segments of the blocks. -/
theorem mem_keys_foldl_upsert (rs : List Block) (acc : List (String × Block)) (s : String) :
    s ∈ (rs.foldl upsert acc).map Prod.fst ↔ s ∈ acc.map Prod.fst ∨ ∃ b ∈ rs, b.segment = s := by
  induction rs generalizing acc with
  | nil => simp
  | cons b rs ih =>
    rw [List.foldl_cons, ih]
    have hk : (upsert acc b).map Prod.fst =
        if (acc.lookup b.segment).isNone then acc.map Prod.fst ++ [b.segment]
        else acc.map Prod.fst := by
      unfold upsert
      rw [List.map_map]
      have : (Prod.fst ∘ fun entry : String × Block =>
          if entry.1 = b.segment then (entry.1, { entry.2 with stop := b.stop }) else entry)
          = Prod.fst := by
        funext entry
        simp only [Function.comp]
        split_ifs <;> rfl
      rw [this]
      split_ifs <;> simp
    have hl : (acc.lookup b.segment).isNone = false → b.segment ∈ acc.map Prod.fst := by
      intro h
      cases hl : acc.lookup b.segment with
      | none => rw [hl] at h; cases h
      | some v =>
        obtain ⟨l1, l2, h, _⟩ := List.lookup_eq_some_iff.1 hl
        rw [h]
        simp
    rw [hk]
    simp only [List.mem_cons, exists_eq_or_imp]
    by_cases hn : (acc.lookup b.segment).isNone = true
    · rw [if_pos hn]
      simp only [List.mem_append, List.mem_singleton]
      constructor
      · rintro ((h | h) | h)
        · exact Or.inl h
        · exact Or.inr (Or.inl h.symm)
        · exact Or.inr (Or.inr h)
      · rintro (h | h | h)
        · exact Or.inl (Or.inl h)
        · exact Or.inl (Or.inr h.symm)
        · exact Or.inr h
    · rw [if_neg hn]
      constructor
      · rintro (h | h)
        · exact Or.inl h
        · exact Or.inr (Or.inr h)
      · rintro (h | h | h)
        · exact Or.inl h
        · exact Or.inl (h ▸ hl (by simpa using hn))
        · exact Or.inr h

/-- The revised provisional spans, in the order of the flattened positions. -/
theorem pairwise_getElem? {α : Type} {R : α → α → Prop} {l : List α} (h : l.Pairwise R)
    {i j : Nat} {a b : α} (hi : l[i]? = some a) (hj : l[j]? = some b) (hij : i < j) : R a b := by
  obtain ⟨hi', rfl⟩ := List.getElem?_eq_some.1 hi
  obtain ⟨hj', rfl⟩ := List.getElem?_eq_some.1 hj
  exact List.pairwise_iff_getElem.1 h i j hi' hj' hij

theorem mem_localized (lines : List String) (ps : List Position) (b : Block)
    (hb : b ∈ localized lines ps) :
    ∃ i p, ps[i]? = some p ∧ b.segment = p.segment ∧
      b.start = min (p.position + 1) lines.length ∧
      b.stop = (match ps[i + 1]? with
        | some next => next.position
        | none => lines.length) := by
  obtain ⟨i, hi⟩ := List.mem_iff_getElem?.1 hb
  rw [getElem?_localized] at hi
  cases hp : ps[i]? with
  | none => rw [hp] at hi; cases hi
  | some p =>
    rw [hp] at hi
    cases Option.some.inj hi
    exact ⟨i, p, hp, rfl, rfl, rfl⟩

theorem localized_bounds (lines : List String) (ps : List Position)
    (hps : ∀ p ∈ ps, p.position < lines.length) (b : Block) (hb : b ∈ localized lines ps) :
    b.start ≤ lines.length ∧ b.stop ≤ lines.length := by
  obtain ⟨i, p, hp, _, hs, he⟩ := mem_localized lines ps b hb
  refine ⟨by rw [hs]; exact Nat.min_le_right _ _, ?_⟩
  rw [he]
  cases hq : ps[i + 1]? with
  | none => exact le_refl _
  | some q => exact le_of_lt (hps q (List.getElem?_mem hq))

theorem localized_le (lines : List String) (ps : List Position)
    (hsorted : (ps.map (fun p => p.position)).Pairwise (fun a b => a < b))
    (b : Block) (hb : b ∈ localized lines ps) : b.start ≤ b.stop := by
  obtain ⟨i, p, hp, _, hs, he⟩ := mem_localized lines ps b hb
  rw [hs, he]
  cases hq : ps[i + 1]? with
  | none => exact Nat.min_le_right _ _
  | some q =>
    have := pairwise_getElem? (List.pairwise_map.1 hsorted) hp hq (Nat.lt_succ_self i)
    exact le_trans (Nat.min_le_left _ _) this

theorem localized_pairwise (lines : List String) (ps : List Position)
    (hsorted : (ps.map (fun p => p.position)).Pairwise (fun a b => a < b)) :
    (localized lines ps).Pairwise (fun a b => a.start ≤ b.start) := by
  unfold localized
  rw [List.pairwise_map]
  have h1 : ps.enum.Pairwise (fun a b => a.2.position < b.2.position) := by
    have := List.pairwise_map.1 hsorted
    rw [← List.enum_map_snd ps, List.pairwise_map] at this
    exact this
  refine h1.imp ?_
  intro a b hab
  show min (a.2.position + 1) lines.length ≤ min (b.2.position + 1) lines.length
  omega

theorem position_lt (H : Host) (segments lines : List String) (p : Position)
    (hp : p ∈ positions H segments lines) : p.position < lines.length := by
  obtain ⟨_, _, line, hl, _⟩ := (mem_positions H segments lines p).1 hp
  exact (List.getElem?_eq_some.1 hl).1

/-! ## Windows of the row parser -/

theorem dropWhile_eq_self_append {α : Type} (p : α → Bool) (xs ys : List α)
    (h : ∀ x ∈ xs, p x = true) : (xs ++ ys).dropWhile p = ys.dropWhile p := by
  induction xs with
  | nil => rfl
  | cons x xs ih =>
    rw [List.cons_append, List.dropWhile_cons, h x (List.mem_cons_self _ _)]
    exact ih (fun y hy => h y (List.mem_cons_of_mem _ hy))

theorem takeWhile_append_stop {α : Type} (p : α → Bool) (xs ys : List α) (y : α)
    (h : ∀ x ∈ xs, p x = true) (hy : p y = false) : (xs ++ y :: ys).takeWhile p = xs := by
  induction xs with
  | nil => simp [List.takeWhile, hy]
  | cons x xs ih =>
    rw [List.cons_append, List.takeWhile_cons, h x (List.mem_cons_self _ _)]
    simp only [if_true]
    rw [ih (fun z hz => h z (List.mem_cons_of_mem _ hz))]

theorem normalizeNcms_single (n : String) (hn : n ≠ "") : normalizeNcms [n, ""] = [n] := by
  have h1 : (n.length != 0) = true := by
    simpa [length_eq_zero_iff] using hn
  have hf : [n, ""].filter (fun ncm => ncm.length != 0) = [n] := by
    rw [List.filter_cons, h1]
    rfl
  unfold normalizeNcms
  simp only [hf]
  split_ifs
  · simp at *
  · rfl
  · rfl

theorem filter_nonempty (ds : List String) (h : ∀ d ∈ ds, d ≠ "") :
    ds.filter (fun line => line.length != 0) = ds := by
  rw [List.filter_eq_self]
  intro d hd
  simpa [length_eq_zero_iff] using h d hd

/-- The row of a window that is not de-skewed. -/
theorem takeSingleTableRow_plain (lines : List String) (h2 : 2 ≤ lines.length)
    (hs : ¬ (lines[0]? = some "" ∧ lines[1]? = some "")) :
    takeSingleTableRow lines = some {
      item := lines[1]?
      cest := lines[3]?
      ncms := normalizeNcms ((lines.drop 4).takeWhile isNcmLine)
      description := collapseSpaces (join
        (((lines.drop (4 + ((lines.drop 4).takeWhile isNcmLine).length)).takeWhile
          (fun line => !isMarker line)).filter (fun line => line.length != 0)))
      skip := 4 + ((lines.drop 4).takeWhile isNcmLine).length +
        ((lines.drop (4 + ((lines.drop 4).takeWhile isNcmLine).length)).takeWhile
          (fun line => !isMarker line)).length - 1 } := by
  unfold takeSingleTableRow
  rw [if_neg (by omega), if_neg hs]

/-- The first row of a span laid out as header, spacer, item, spacer, CEST, one code, spacer,
description lines and a marker. -/
theorem takeSingleTableRow_first (I C n m : String) (ds : List String)
    (hI : I ≠ "") (hn : isNcmLine n = true) (hn0 : n ≠ "") (hk : ds ≠ [])
    (hd : ∀ d ∈ ds, d ≠ "" ∧ isNcmLine d = false ∧ isMarker d = false)
    (hm : isMarker m = true) :
    takeSingleTableRow (["", I, "", C, n, ""] ++ ds ++ [m]) =
      some ⟨some I, some C, [n], collapseSpaces (join ds), ds.length + 5⟩ := by
  obtain ⟨d, ds', rfl⟩ := List.exists_cons_of_ne_nil hk
  have hncm : List.takeWhile isNcmLine (n :: "" :: d :: (ds' ++ [m])) = [n, ""] := by
    have := takeWhile_append_stop isNcmLine [n, ""] (ds' ++ [m]) d
      (by
        intro x hx
        simp only [List.mem_cons, List.mem_singleton, List.not_mem_nil, or_false] at hx
        rcases hx with rfl | rfl
        · exact hn
        · decide)
      (hd d (List.mem_cons_self _ _)).2.1
    simpa using this
  have hdesc : List.takeWhile (fun line => !isMarker line) (d :: (ds' ++ [m])) = d :: ds' := by
    have := takeWhile_append_stop (fun line => !isMarker line) (d :: ds') [] m
      (fun x hx => by simp [(hd x hx).2.2]) (by simp [hm])
    simpa using this
  rw [takeSingleTableRow_plain _ (by simp) (by
    rintro ⟨_, h⟩
    exact hI (Option.some.inj h))]
  simp only [List.cons_append, List.nil_append, List.length_cons,
    List.getElem?_cons_zero, List.getElem?_cons_succ, List.drop_succ_cons,
    List.drop_zero, hncm, hdesc, normalizeNcms_single n hn0,
    filter_nonempty (d :: ds') (fun x hx => (hd x hx).1), List.length_nil]
  have : 4 + (0 + 1 + 1) + (ds'.length + 1) - 1 = ds'.length + 1 + 5 := by omega
  rw [this]

/-- The window made of the last description line and the marker gives a row of its own. -/
theorem takeSingleTableRow_last (d m : String) (hd : d ≠ "") :
    takeSingleTableRow [d, m] = some ⟨some m, none, [], "", 3⟩ := by
  rw [takeSingleTableRow_plain _ (by simp) (by
    rintro ⟨h, _⟩
    exact hd (Option.some.inj h))]
  rfl

theorem rowLoop_done (fuel : Nat) (lines : List String) (offset : Nat) (rows : List TableRow)
    (h : lines.length ≤ offset) : rowLoop (fuel + 1) lines offset rows = .ok rows := by
  rw [rowLoop, if_neg (by omega)]

theorem rowLoop_step (fuel : Nat) (lines : List String) (offset : Nat) (rows : List TableRow)
    (row : TableRow) (h : offset < lines.length)
    (hrow : takeSingleTableRow (lines.drop offset) = some row) :
    rowLoop (fuel + 1) lines offset rows
      = rowLoop fuel lines (offset + row.skip) (rows ++ [row]) := by
  rw [rowLoop, if_pos h, hrow]

/-! ## The summary pattern -/

theorem isSpace_of_isUpper (c : Char) (h : isUpper c = true) : isSpace c = false := by
  simp only [isUpper, decide_eq_true_eq, Char.le_def, UInt32.le_def] at h
  simp only [isSpace, Bool.or_eq_false_iff, beq_eq_false_iff_ne, ne_eq, decide_eq_false_iff_not,
    Char.le_def, UInt32.le_def]
  have hne : ∀ d : Char, ¬ ('A'.val.val ≤ d.val.val ∧ d.val.val ≤ 'Z'.val.val) → c ≠ d := by
    rintro d hd rfl
    exact hd h
  refine ⟨⟨⟨⟨⟨⟨⟨⟨⟨⟨⟨⟨⟨⟨?_, ?_⟩, ?_⟩, ?_⟩, ?_⟩, ?_⟩, ?_⟩, ?_⟩, ?_⟩, ?_⟩, ?_⟩, ?_⟩, ?_⟩, ?_⟩, ?_⟩
  all_goals first
    | exact hne _ (by decide)
    | skip
  simp only [BitVec.le_def] at h ⊢
  rintro ⟨h1, _⟩
  exact absurd (le_trans h1 h.2) (by decide)

theorem ne_newline_of_not_lineTerminator (c : Char) (h : isLineTerminator c = false) :
    (c != '\n') = true := by
  simp only [isLineTerminator, Bool.or_eq_false_iff] at h
  simpa using h.1.1.1

theorem takeWhile_eq_self {α : Type} (p : α → Bool) (xs : List α) (h : ∀ x ∈ xs, p x = true) :
    xs.takeWhile p = xs := by
  induction xs with
  | nil => rfl
  | cons x xs ih =>
    rw [List.takeWhile_cons, h x (List.mem_cons_self _ _)]
    simp only [if_true]
    rw [ih (fun y hy => h y (List.mem_cons_of_mem _ hy))]

/-- The groups of the summary pattern on a line made of two digits, a full stop, one space and a
capitalised text of three characters or more without line terminators. -/
theorem summaryMatch_line (d1 d2 : Char) (D : String)
    (h1 : isDigit d1 = true) (h2 : isDigit d2 = true) (hlen : 3 ≤ D.length)
    (hup : D.data.head?.map isUpper = some true)
    (hnl : ∀ c ∈ D.data, isLineTerminator c = false) :
    summaryMatch ⟨d1 :: d2 :: '.' :: ' ' :: D.data⟩ = some ⟨⟨[d1, d2]⟩, D⟩ := by
  obtain ⟨data⟩ := D
  match data, hlen, hup, hnl with
  | u :: v :: w :: t, _, hup, hnl =>
    have hu : isUpper u = true := by simpa using hup
    have hsu : isSpace u = false := isSpace_of_isUpper u hu
    have hv : isLineTerminator v = false := hnl v (by simp)
    have hmore : (w :: t).takeWhile (fun c => c != '\n') = w :: t :=
      takeWhile_eq_self _ _ (fun x hx =>
        ne_newline_of_not_lineTerminator x (hnl x (by
          simp only [List.mem_cons] at hx ⊢
          tauto)))
    have hsp : isSpace ' ' = true := by decide
    simp only [summaryMatch, h1, h2, List.head?_cons, Option.map_some', Option.getD_some, hsp,
      List.dropWhile_cons, hsu, hu, hv]
    have hw : w ≠ '\n' := by
      simpa using ne_newline_of_not_lineTerminator w (hnl w (by simp))
    simp [hmore, hw, hu, hv]

/-- A capital `A` to `Z` takes one UTF-16 code unit. -/
theorem twoUnits_of_isUpper (c : Char) (h : isUpper c = true) : twoUnits c = false := by
  simp only [isUpper, Bool.and_eq_true, decide_eq_true_eq] at h
  simp only [twoUnits, decide_eq_false_iff_not, not_le]
  have h2 := h.2
  rw [Char.le_def, UInt32.le_def, BitVec.le_def] at h2
  have : c.toNat ≤ 'Z'.toNat := h2
  have hz : 'Z'.toNat = 90 := by decide
  omega

/-- The groups of the summary pattern on a line made of two digits, a full stop, one space and a
capitalised text without line terminators: the line matches exactly when the text has three UTF-16
code units or more. -/
theorem summaryMatch_line_units (d1 d2 : Char) (D : String)
    (h1 : isDigit d1 = true) (h2 : isDigit d2 = true)
    (hup : D.data.head?.map isUpper = some true)
    (hnl : ∀ c ∈ D.data, isLineTerminator c = false) :
    summaryMatch ⟨d1 :: d2 :: '.' :: ' ' :: D.data⟩ =
      if 3 ≤ codeUnits D then some ⟨⟨[d1, d2]⟩, D⟩ else none := by
  obtain ⟨data⟩ := D
  have hsp : isSpace ' ' = true := by decide
  match data, hup, hnl with
  | [u], hup, hnl =>
    have hu : isUpper u = true := by simpa using hup
    have hsu : isSpace u = false := isSpace_of_isUpper u hu
    have h2u : twoUnits u = false := twoUnits_of_isUpper u hu
    simp [summaryMatch, h1, h2, hsp, hsu, codeUnits, h2u]
  | [u, v], hup, hnl =>
    have hu : isUpper u = true := by simpa using hup
    have hsu : isSpace u = false := isSpace_of_isUpper u hu
    have h2u : twoUnits u = false := twoUnits_of_isUpper u hu
    have hv : isLineTerminator v = false := hnl v (by simp)
    by_cases htwo : twoUnits v = true
    · simp [summaryMatch, h1, h2, hsp, hsu, codeUnits, h2u, hu, hv, htwo]
    · simp only [Bool.not_eq_true] at htwo
      simp [summaryMatch, h1, h2, hsp, hsu, codeUnits, h2u, hu, hv, htwo]
  | u :: v :: w :: t, hup, hnl =>
    have hlen : 3 ≤ codeUnits ⟨u :: v :: w :: t⟩ := by
      simp only [codeUnits, List.map_cons, List.sum_cons]
      split_ifs <;> omega
    rw [if_pos hlen]
    exact summaryMatch_line d1 d2 ⟨u :: v :: w :: t⟩ h1 h2 (by simp [String.length]) hup hnl

/-! ## Termination of the row loop -/

/-- A row advances the loop by three lines or more. -/
theorem skip_ge_three (lines : List String) (row : TableRow)
    (h : takeSingleTableRow lines = some row) : 3 ≤ row.skip := by
  unfold takeSingleTableRow at h
  split_ifs at h
  all_goals
    cases Option.some.inj h
    show 3 ≤ 4 + _ + _ - 1
    omega

/-- The loop returns within `fuel + 1` iterations as soon as `fuel` covers the lines left. -/
theorem rowLoop_fuel (fuel : Nat) (lines : List String) (offset : Nat) (rows : List TableRow)
    (h : lines.length ≤ offset + fuel) :
    ∃ out, rowLoop (fuel + 1) lines offset rows = .ok out := by
  induction fuel generalizing offset rows with
  | zero => exact ⟨rows, rowLoop_done 0 lines offset rows (by omega)⟩
  | succ fuel ih =>
    by_cases hlt : offset < lines.length
    · cases hrow : takeSingleTableRow (lines.drop offset) with
      | none => exact ⟨rows, by rw [rowLoop, if_pos hlt, hrow]⟩
      | some row =>
        rw [rowLoop_step _ _ _ _ row hlt hrow]
        have := skip_ge_three _ row hrow
        exact ih _ _ (by omega)
    · exact ⟨rows, rowLoop_done _ lines offset rows (by omega)⟩

/-- The bound on the iterations of the row loop is never reached. -/
theorem parseSegment_ne_fuel (H : Host) (lines : List String) :
    parseSegment H lines ≠ .error .fuel := by
  unfold parseSegment
  simp only []
  split_ifs
  · simp
  · cases hrow : takeSingleTableRow
        ((lines.dropWhile (fun line => H.toUpperCase line != "DESCRIÇÃO")).drop 1) with
    | none => simp
    | some row =>
      obtain ⟨out, hout⟩ := rowLoop_fuel
        ((lines.dropWhile (fun line => H.toUpperCase line != "DESCRIÇÃO")).drop 1).length
        ((lines.dropWhile (fun line => H.toUpperCase line != "DESCRIÇÃO")).drop 1)
        row.skip [row] (by omega)
      simp only [hout]
      simp

/-- A line that fully matches `(\d+\.\d+)+` is not empty and belongs to the `ncms` run. -/
theorem isNcmLine_of_isMarker (line : String) (h : isMarker line = true) :
    isNcmLine line = true ∧ line ≠ "" := by
  rw [isMarker, Re.testWhole_iff] at h
  obtain ⟨u, v, huv, ⟨a, w, rfl, ha, b, c, rfl, hb, hc⟩, _⟩ := h
  constructor
  · have : Re.test ncmCodeRe line = true := by
      rw [Re.test_iff]
      exact ⟨[], a ++ (b ++ c), v, by simpa using huv, a, b ++ (c ++ []), by simp, ha,
        b, c ++ [], rfl, hb, c, [], rfl, hc, Or.inr rfl⟩
    simp [isNcmLine, this]
  · obtain ⟨x, y, rfl, ⟨d, rfl, _⟩, _⟩ := ha
    intro hl
    rw [hl] at huv
    simp at huv

/-! ## The fault of the first row -/

theorem takeSingleTableRow_eq_none (lines : List String) :
    takeSingleTableRow lines = none ↔ lines.length < 2 := by
  unfold takeSingleTableRow
  by_cases h : lines.length < 2
  · simp [h]
  · simp [h]

/-- The one fault of `parseSegment`: exactly one line after the header. -/
theorem parseSegment_typeError_iff (H : Host) (lines : List String) :
    parseSegment H lines = .error .typeError ↔
      ((lines.dropWhile (fun line => H.toUpperCase line != "DESCRIÇÃO")).drop 1).length = 1 := by
  unfold parseSegment
  simp only []
  generalize (lines.dropWhile (fun line => H.toUpperCase line != "DESCRIÇÃO")).drop 1 = body
  by_cases h0 : body.length = 0
  · rw [if_pos h0]
    simp [h0]
  · rw [if_neg h0]
    cases hrow : takeSingleTableRow body with
    | none =>
      have := (takeSingleTableRow_eq_none body).1 hrow
      simp only [true_iff]
      omega
    | some row =>
      have hlen : ¬ body.length < 2 := fun h =>
        by rw [(takeSingleTableRow_eq_none body).2 h] at hrow; cases hrow
      obtain ⟨out, hout⟩ := rowLoop_fuel body.length body row.skip [row] (by omega)
      simp only [hout]
      constructor
      · intro h; cases h
      · intro h; omega

/-! ## Chaining of the windows -/

theorem getElem?_takeWhile_length {α : Type} (p : α → Bool) (xs : List α) (y : α)
    (h : xs[(xs.takeWhile p).length]? = some y) : p y = false := by
  induction xs with
  | nil => simp at h
  | cons x xs ih =>
    rw [List.takeWhile_cons] at h
    by_cases hx : p x = true
    · rw [if_pos hx, List.length_cons, List.getElem?_cons_succ] at h
      exact ih h
    · rw [if_neg hx, List.length_nil, List.getElem?_cons_zero] at h
      cases Option.some.inj h
      simpa using hx

/-- A window that is not de-skewed chains: when a line follows its description run, that line
is a marker and the next window gives a row whose item is that line. -/
theorem takeSingleTableRow_next_item (w : List String) (row : TableRow) (marker : String)
    (h2 : 2 ≤ w.length) (hs : ¬ (w[0]? = some "" ∧ w[1]? = some ""))
    (hrow : takeSingleTableRow w = some row)
    (hmk : w[4 + ((w.drop 4).takeWhile isNcmLine).length +
      ((w.drop (4 + ((w.drop 4).takeWhile isNcmLine).length)).takeWhile
        (fun line => !isMarker line)).length]? = some marker) :
    isMarker marker = true ∧
      ∃ next, takeSingleTableRow (w.drop row.skip) = some next ∧ next.item = some marker := by
  rw [takeSingleTableRow_plain w h2 hs] at hrow
  cases Option.some.inj hrow
  simp only []
  generalize ((w.drop 4).takeWhile isNcmLine).length = a at hmk ⊢
  have hmarker : isMarker marker = true := by
    have h1 : (w.drop (4 + a))[((w.drop (4 + a)).takeWhile
        (fun line => !isMarker line)).length]? = some marker := by
      rw [List.getElem?_drop]
      exact hmk
    simpa using getElem?_takeWhile_length _ _ _ h1
  generalize ((w.drop (4 + a)).takeWhile (fun line => !isMarker line)).length = d at hmk ⊢
  refine ⟨hmarker, ?_⟩
  have hsk : 4 + a + d - 1 = 3 + a + d := by omega
  have hlen : 4 + a + d < w.length := (List.getElem?_eq_some.1 hmk).1
  have h1 : (w.drop (3 + a + d))[1]? = some marker := by
    rw [List.getElem?_drop, ← hmk]
    congr 1
    omega
  have hne : marker ≠ "" := by
    rintro rfl
    exact absurd hmarker (by decide)
  rw [hsk, takeSingleTableRow_plain _ (by rw [List.length_drop]; omega) (by
    rintro ⟨_, h⟩
    rw [h1] at h
    exact hne (Option.some.inj h))]
  exact ⟨_, rfl, h1⟩

/-! ## Normalised NCM lists -/

theorem join_ne_empty (x : String) (xs : List String) (hx : x ≠ "") : join (x :: xs) ≠ "" := by
  intro h
  have hp := join_cons_data x xs
  rw [h] at hp
  have : x.data = [] := List.prefix_nil.1 hp
  exact hx (String.ext this)

/-- The three shapes of the result of `normalizeNcms`. -/
theorem normalizeNcms_cases (xs : List String) :
    normalizeNcms xs = [] ∨
      (∃ y ys, xs.filter (fun ncm => ncm.length != 0) = y :: ys ∧
        Re.testStart capitulosRe y = true ∧ normalizeNcms xs = [join (y :: ys)]) ∨
      (∃ y ys, xs.filter (fun ncm => ncm.length != 0) = y :: ys ∧
        Re.testStart capitulosRe y = false ∧ normalizeNcms xs = y :: ys) := by
  unfold normalizeNcms
  cases hf : xs.filter (fun ncm => ncm.length != 0) with
  | nil => exact Or.inl (by simp)
  | cons y ys =>
    by_cases hc : Re.testStart capitulosRe y = true
    · exact Or.inr (Or.inl ⟨y, ys, rfl, hc, by simp [hc]⟩)
    · exact Or.inr (Or.inr ⟨y, ys, rfl, by simpa using hc, by simp [hc]⟩)

theorem normalizeNcms_of_filter_eq (xs : List String)
    (h : xs.filter (fun ncm => ncm.length != 0) = xs)
    (hc : Re.testStart capitulosRe (xs.headD "") = false) : normalizeNcms xs = xs := by
  unfold normalizeNcms
  simp only [h, hc]
  cases xs <;> simp

/-! ## The lines examined by the trimming -/

/-- The lines examined for a span of five lines or more: its last line, then four more. -/
theorem examined_eq_cons (lines : List String) (block : Block) (last : String)
    (hlen : block.start + 5 ≤ block.stop) (hlast : lines[block.stop - 1]? = some last) :
    ∃ rest, (takeRight 5 (slice lines block.start block.stop)).reverse = last :: rest ∧
      rest.length = 4 := by
  have hL : block.stop - 1 < lines.length := (List.getElem?_eq_some.1 hlast).1
  have hs : slice lines block.start block.stop
      = slice lines block.start (block.stop - 1) ++ [last] := by
    unfold slice
    have h1 : block.stop = (block.stop - 1) + 1 := by omega
    conv_lhs => rw [h1]
    rw [List.take_succ, hlast]
    simp only [Option.toList]
    rw [List.drop_append_of_le_length]
    rw [List.length_take]
    omega
  have hlen2 : (slice lines block.start (block.stop - 1)).length
      = block.stop - 1 - block.start := by
    rw [length_slice]
    omega
  rw [hs]
  generalize slice lines block.start (block.stop - 1) = pre at hlen2
  have h5 : (pre ++ [last]).length - 5 = pre.length - 4 := by
    rw [List.length_append, List.length_singleton]; omega
  refine ⟨(pre.drop (pre.length - 4)).reverse, ?_, ?_⟩
  · unfold takeRight
    rw [h5, List.drop_append_of_le_length (by omega), List.reverse_append]
    rfl
  · rw [List.length_reverse, List.length_drop]; omega

/-! ## The number of rows -/

/-- The row of a window of two lines or more, from the named parts of `takeSingleTableRow`. -/
theorem takeSingleTableRow_eq (w : List String) (h : 2 ≤ w.length) :
    takeSingleTableRow w = some {
      item := (deskew w)[1]?
      cest := (deskew w)[3]?
      ncms := normalizeNcms (ncmsRun (deskew w))
      description := collapseSpaces (join
        ((descriptionRun (deskew w)).filter (fun line => line.length != 0)))
      skip := 4 + (ncmsRun (deskew w)).length + (descriptionRun (deskew w)).length - 1 } := by
  unfold takeSingleTableRow
  rw [if_neg (by omega)]
  rfl

/-- A row comes from a window of two lines or more. -/
theorem length_of_takeSingleTableRow (w : List String) (row : TableRow)
    (h : takeSingleTableRow w = some row) : 2 ≤ w.length := by
  by_contra hw
  rw [(takeSingleTableRow_eq_none w).2 (by omega)] at h
  cases h

/-- The count of lines a row consumes, from the window once de-skewed. -/
theorem skip_eq (w : List String) (row : TableRow) (h : takeSingleTableRow w = some row) :
    row.skip = 4 + (ncmsRun (deskew w)).length + (descriptionRun (deskew w)).length - 1 := by
  rw [takeSingleTableRow_eq w (length_of_takeSingleTableRow w row h)] at h
  cases Option.some.inj h
  rfl

/-- Three rows take nine lines: the rows the loop adds, counted against the lines left. -/
theorem rowLoop_length (fuel : Nat) (lines : List String) (offset : Nat)
    (rows out : List TableRow) (h : rowLoop fuel lines offset rows = .ok out) :
    3 * out.length ≤ 3 * rows.length + (lines.length + 1 - offset) := by
  induction fuel generalizing offset rows with
  | zero =>
    rw [rowLoop] at h
    cases h
  | succ fuel ih =>
    by_cases hlt : offset < lines.length
    · cases hrow : takeSingleTableRow (lines.drop offset) with
      | none =>
        rw [rowLoop, if_pos hlt, hrow] at h
        cases h
        omega
      | some row =>
        rw [rowLoop_step _ _ _ _ row hlt hrow] at h
        have h3 := skip_ge_three _ row hrow
        have h2 : ¬ (lines.drop offset).length < 2 := fun hw => by
          rw [(takeSingleTableRow_eq_none _).2 hw] at hrow
          cases hrow
        rw [List.length_drop] at h2
        have := ih _ _ h
        rw [List.length_append, List.length_singleton] at this
        omega
    · rw [rowLoop_done _ _ _ _ (by omega)] at h
      cases h
      omega

/-! ## The rows and their windows -/

/-- Every row the loop adds is the row of a window that starts at some offset of the lines. -/
theorem rowLoop_rows (fuel : Nat) (lines : List String) (offset : Nat)
    (rows out : List TableRow) (h : rowLoop fuel lines offset rows = .ok out) :
    ∃ new, out = rows ++ new ∧
      ∀ r ∈ new, ∃ o, takeSingleTableRow (lines.drop o) = some r := by
  induction fuel generalizing offset rows with
  | zero =>
    rw [rowLoop] at h
    cases h
  | succ fuel ih =>
    by_cases hlt : offset < lines.length
    · cases hrow : takeSingleTableRow (lines.drop offset) with
      | none =>
        rw [rowLoop, if_pos hlt, hrow] at h
        cases h
        exact ⟨[], by simp, by simp⟩
      | some row =>
        rw [rowLoop_step _ _ _ _ row hlt hrow] at h
        obtain ⟨new, hout, hnew⟩ := ih _ _ h
        refine ⟨row :: new, by rw [hout]; simp, ?_⟩
        intro r hr
        rcases List.mem_cons.1 hr with rfl | hr
        · exact ⟨offset, hrow⟩
        · exact hnew r hr
    · rw [rowLoop_done _ _ _ _ (by omega)] at h
      cases h
      exact ⟨[], by simp, by simp⟩

/-- Every row of `parseSegment` is the row of a window that starts at some offset of the lines
after the header. -/
theorem parseSegment_rows (H : Host) (lines : List String) (rows : List TableRow)
    (h : parseSegment H lines = .ok rows) :
    ∀ r ∈ rows, ∃ o, takeSingleTableRow
      (((lines.dropWhile (fun line => H.toUpperCase line != "DESCRIÇÃO")).drop 1).drop o)
        = some r := by
  unfold parseSegment at h
  simp only [] at h
  generalize (lines.dropWhile (fun line => H.toUpperCase line != "DESCRIÇÃO")).drop 1 = body
    at h ⊢
  by_cases h0 : body.length = 0
  · rw [if_pos h0] at h
    cases h
    simp
  · rw [if_neg h0] at h
    cases hrow : takeSingleTableRow body with
    | none =>
      rw [hrow] at h
      cases h
    | some row =>
      rw [hrow] at h
      obtain ⟨new, hout, hnew⟩ := rowLoop_rows _ _ _ _ _ h
      intro r hr
      rw [hout] at hr
      rcases List.mem_append.1 hr with hr | hr
      · rw [List.mem_singleton] at hr
        exact ⟨0, by rw [hr]; exact hrow⟩
      · exact hnew r hr

/-! ## Rows after the first -/

theorem isMarker_empty : isMarker "" = false := by decide

/-- A window whose line 1 is a marker is not de-skewed. -/
theorem deskew_of_marker (w : List String) (m : String) (h1 : w[1]? = some m)
    (hm : isMarker m = true) : deskew w = w := by
  unfold deskew
  rw [if_neg]
  rintro ⟨_, h⟩
  rw [h1] at h
  cases Option.some.inj h
  exact absurd hm (by decide)

/-- The line that follows the description run of a window, if any, is a marker. -/
theorem isMarker_after_descriptionRun (w : List String) (x : String)
    (h : w[4 + (ncmsRun w).length + (descriptionRun w).length]? = some x) :
    isMarker x = true := by
  have h1 : (w.drop (4 + (ncmsRun w).length))[(descriptionRun w).length]? = some x := by
    rw [List.getElem?_drop]
    exact h
  simpa using getElem?_takeWhile_length (fun line => !isMarker line) _ x h1

/-- After a window that is not de-skewed, line 1 of the next window, if any, is a marker. -/
theorem next_window_marker (lines : List String) (o : Nat) (row : TableRow)
    (hrow : takeSingleTableRow (lines.drop o) = some row)
    (hd : deskew (lines.drop o) = lines.drop o) (x : String)
    (hx : lines[o + row.skip + 1]? = some x) : isMarker x = true := by
  have hs := skip_eq _ row hrow
  rw [hd] at hs
  apply isMarker_after_descriptionRun (lines.drop o) x
  rw [List.getElem?_drop, ← hx]
  congr 1
  omega

/-- When line 1 of the window at the offset is a marker, if there is one, every row the loop adds
comes from a window that is not de-skewed and has the marker at line 1 of its window as item. -/
theorem rowLoop_items (fuel : Nat) (lines : List String) (offset : Nat)
    (rows out : List TableRow)
    (hgood : ∀ x, lines[offset + 1]? = some x → isMarker x = true)
    (h : rowLoop fuel lines offset rows = .ok out) :
    ∃ new, out = rows ++ new ∧
      ∀ r ∈ new, ∃ o m, takeSingleTableRow (lines.drop o) = some r ∧
        deskew (lines.drop o) = lines.drop o ∧
        lines[o + 1]? = some m ∧ r.item = some m ∧ isMarker m = true := by
  induction fuel generalizing offset rows with
  | zero =>
    rw [rowLoop] at h
    cases h
  | succ fuel ih =>
    by_cases hlt : offset < lines.length
    · cases hrow : takeSingleTableRow (lines.drop offset) with
      | none =>
        rw [rowLoop, if_pos hlt, hrow] at h
        cases h
        exact ⟨[], by simp, by simp⟩
      | some row =>
        rw [rowLoop_step _ _ _ _ row hlt hrow] at h
        have h2 := length_of_takeSingleTableRow _ row hrow
        rw [List.length_drop] at h2
        obtain ⟨m, h1⟩ : ∃ m, lines[offset + 1]? = some m :=
          ⟨_, List.getElem?_eq_getElem (by omega)⟩
        have hm := hgood _ h1
        have hw1 : (lines.drop offset)[1]? = some m := by
          rw [List.getElem?_drop]
          exact h1
        have hd := deskew_of_marker _ _ hw1 hm
        have hitem : row.item = some m := by
          have := takeSingleTableRow_eq (lines.drop offset) (by rw [List.length_drop]; omega)
          rw [hrow, hd] at this
          cases Option.some.inj this
          exact hw1
        obtain ⟨new, hout, hnew⟩ := ih (offset + row.skip) (rows ++ [row])
          (fun x hx => next_window_marker lines offset row hrow hd x hx) h
        refine ⟨row :: new, by rw [hout]; simp, ?_⟩
        intro r hr
        rcases List.mem_cons.1 hr with rfl | hr
        · exact ⟨offset, _, hrow, hd, h1, hitem, hm⟩
        · exact hnew r hr
    · rw [rowLoop_done _ _ _ _ (by omega)] at h
      cases h
      exact ⟨[], by simp, by simp⟩

/-! ## Collapsing white space -/

theorem collapse_cons_of_not_space (c : Char) (cs : List Char) (hc : isSpace c = false) :
    collapse false (c :: cs) = c :: collapse false cs := by
  rw [collapse, hc]
  rfl

/-- Inside a run already replaced, the white space before the next other character is dropped. -/
theorem collapse_true_run (run rest : List Char) (hrun : ∀ c ∈ run, isSpace c = true)
    (hrest : ∀ c, rest.head? = some c → isSpace c = false) :
    collapse true (run ++ rest) = collapse false rest := by
  induction run with
  | nil =>
    cases rest with
    | nil => rfl
    | cons d ds =>
      have hd := hrest d rfl
      rw [List.nil_append, collapse, if_neg (by simp [hd]), collapse_cons_of_not_space d ds hd]
  | cons c run ih =>
    rw [List.cons_append, collapse, if_pos (hrun c (List.mem_cons_self _ _))]
    exact ih (fun d hd => hrun d (List.mem_cons_of_mem _ hd))

/-- What `.replace(/\s{2,}/g, ' ')` does to a maximal run of white space: a run of two characters
or more becomes one space, a run of one character is kept. -/
theorem collapse_run (run rest : List Char) (hne : run ≠ [])
    (hrun : ∀ c ∈ run, isSpace c = true)
    (hrest : ∀ c, rest.head? = some c → isSpace c = false) :
    collapse false (run ++ rest)
      = (if 2 ≤ run.length then [' '] else run) ++ collapse false rest := by
  match run, hne, hrun with
  | [c], _, hrun =>
    have h1 : ((rest.head?.map isSpace).getD false) = false := by
      cases rest with
      | nil => rfl
      | cons d ds => simpa using hrest d rfl
    show collapse false (c :: rest) = _
    rw [collapse, h1]
    simp
  | c :: d :: run, _, hrun =>
    have hc := hrun c (by simp)
    have hd := hrun d (by simp)
    show collapse false (c :: (d :: run ++ rest)) = _
    rw [collapse]
    simp only [List.cons_append, List.head?_cons, Option.map_some', Option.getD_some, hc, hd,
      Bool.and_self, if_true, List.length_cons]
    rw [show d :: (run ++ rest) = (d :: run) ++ rest from rfl,
      collapse_true_run (d :: run) rest (fun x hx => hrun x (List.mem_cons_of_mem _ hx)) hrest]
    simp

/-- The first character left after a replaced run is no white space. -/
theorem head_collapse_true (cs : List Char) (c : Char)
    (h : (collapse true cs).head? = some c) : isSpace c = false := by
  induction cs with
  | nil => simp [collapse] at h
  | cons d cs ih =>
    rw [collapse] at h
    by_cases hd : isSpace d = true
    · rw [if_pos hd] at h
      exact ih h
    · rw [if_neg hd] at h
      simp only [List.head?_cons, Option.some.injEq] at h
      rw [← h]
      simpa using hd

/-- The result of `.replace(/\s{2,}/g, ' ')` has no two adjacent white-space characters. -/
theorem chain_collapse (b : Bool) (cs : List Char) :
    List.Chain' (fun x y => ¬ (isSpace x = true ∧ isSpace y = true)) (collapse b cs) := by
  induction cs generalizing b with
  | nil => cases b <;> simp [collapse]
  | cons c cs ih =>
    cases b with
    | true =>
      rw [collapse]
      by_cases hc : isSpace c = true
      · rw [if_pos hc]
        exact ih true
      · rw [if_neg hc, List.chain'_cons']
        exact ⟨fun y _ h => hc h.1, ih false⟩
    | false =>
      rw [collapse]
      by_cases h2 : (isSpace c && (cs.head?.map isSpace).getD false) = true
      · rw [if_pos h2, List.chain'_cons']
        refine ⟨fun y hy h => ?_, ih true⟩
        have := head_collapse_true cs y hy
        rw [this] at h
        exact absurd h.2 (by decide)
      · rw [if_neg h2, List.chain'_cons']
        refine ⟨fun y hy h => ?_, ih false⟩
        apply h2
        rw [Bool.and_eq_true]
        refine ⟨h.1, ?_⟩
        cases cs with
        | nil => simp [collapse] at hy
        | cons d ds =>
          by_cases hd : isSpace d = true
          · simpa using hd
          · rw [collapse_cons_of_not_space d ds (by simpa using hd)] at hy
            simp only [List.head?_cons, Option.mem_def, Option.some.injEq] at hy
            rw [hy] at hd
            exact absurd h.2 hd

/-- No line of the description run is a marker. -/
theorem not_isMarker_of_mem_descriptionRun (w : List String) (line : String)
    (h : line ∈ descriptionRun w) : isMarker line = false := by
  have := List.mem_takeWhile_imp h
  simpa using this

/-! ## Entries of the summary -/

theorem head?_dropWhile_false {α : Type} (p : α → Bool) (xs : List α) (x : α)
    (h : (xs.dropWhile p).head? = some x) : p x = false := by
  induction xs with
  | nil => simp at h
  | cons y ys ih =>
    rw [List.dropWhile_cons] at h
    by_cases hy : p y = true
    · rw [if_pos hy] at h
      exact ih h
    · rw [if_neg hy] at h
      simp only [List.head?_cons, Option.some.injEq] at h
      rw [← h]
      simpa using hy

/-- What a match of the summary pattern says of the line and of the two groups. -/
theorem summaryMatch_some (line : String) (e : SegmentSummary)
    (h : summaryMatch line = some e) :
    ∃ d1 d2 ws u v more rest,
      isDigit d1 = true ∧ isDigit d2 = true ∧ ws ≠ [] ∧ (∀ c ∈ ws, isSpace c = true) ∧
      isUpper u = true ∧ isLineTerminator v = false ∧ (∀ c ∈ more, c ≠ '\n') ∧
      (∀ c, rest.head? = some c → c = '\n') ∧
      line.data = d1 :: d2 :: '.' :: (ws ++ u :: v :: (more ++ rest)) ∧
      e = ⟨⟨[d1, d2]⟩, ⟨u :: v :: more⟩⟩ := by
  unfold summaryMatch at h
  split at h
  · rename_i d1 d2 dot rest0 hdata
    split_ifs at h with hc
    simp only [Bool.and_eq_true, beq_iff_eq] at hc
    obtain ⟨⟨⟨h1, h2⟩, hdot⟩, hsp⟩ := hc
    subst hdot
    split at h
    · rename_i u v tail hdrop
      simp only [] at h
      split_ifs at h with hc2
      simp only [Bool.and_eq_true, Bool.not_eq_true', Bool.or_eq_true] at hc2
      obtain ⟨⟨hu, hv⟩, _⟩ := hc2
      refine ⟨d1, d2, rest0.takeWhile isSpace, u, v, tail.takeWhile (fun c => c != '\n'),
        tail.dropWhile (fun c => c != '\n'), h1, h2, ?_, ?_, hu, hv, ?_, ?_, ?_,
        (Option.some.inj h).symm⟩
      · cases rest0 with
        | nil => simp at hsp
        | cons c cs =>
          have hc : isSpace c = true := by simpa using hsp
          simp [List.takeWhile, hc]
      · intro c hc
        exact List.mem_takeWhile_imp hc
      · intro c hc
        simpa using List.mem_takeWhile_imp hc
      · intro c hc
        simpa using head?_dropWhile_false _ _ c hc
      · rw [hdata, List.takeWhile_append_dropWhile, ← hdrop,
          List.takeWhile_append_dropWhile]
    · cases h
  · cases h

theorem filterMap_filter_isSome {α β : Type} (f : α → Option β) (xs : List α) :
    (xs.filter (fun x => (f x).isSome)).filterMap f = xs.filterMap f := by
  induction xs with
  | nil => rfl
  | cons x xs ih =>
    cases hx : f x with
    | none => simp [List.filter_cons, List.filterMap_cons, hx, ih]
    | some y => simp [List.filter_cons, List.filterMap_cons, hx, ih]

theorem length_filterMap_eq {α β : Type} (f : α → Option β) (xs : List α) :
    (xs.filterMap f).length = (xs.filter (fun x => (f x).isSome)).length := by
  induction xs with
  | nil => rfl
  | cons x xs ih =>
    cases hx : f x with
    | none => simp [List.filter_cons, List.filterMap_cons, hx, ih]
    | some y => simp [List.filter_cons, List.filterMap_cons, hx, ih]

/-! ## The order of the keys -/

theorem foldl_append_eq {α β : Type} (f : β → List α) (xs : List β) (acc : List α) :
    xs.foldl (fun acc x => acc ++ f x) acc = acc ++ xs.foldl (fun acc x => acc ++ f x) [] := by
  induction xs generalizing acc with
  | nil => simp
  | cons x xs ih =>
    rw [List.foldl_cons, ih, List.foldl_cons, ih ([] ++ f x)]
    simp

/-- The positions are found segment by segment. -/
theorem positions_cons (H : Host) (s : String) (segments lines : List String) :
    positions H (s :: segments) lines = positions H [s] lines ++ positions H segments lines := by
  unfold positions
  rw [List.foldl_cons, foldl_append_eq]
  rfl

theorem segment_of_mem_positions_singleton (H : Host) (s : String) (lines : List String)
    (p : Position) (hp : p ∈ positions H [s] lines) : p.segment = s := by
  have := ((mem_positions H [s] lines p).1 hp).1
  simpa using this

/-- A segment has a position exactly when some line after the first equals it once folded. -/
theorem positions_singleton_eq_nil (H : Host) (s : String) (lines : List String) :
    positions H [s] lines = [] ↔
      (lines.drop 1).any (fun line => folded H line == folded H s) = false := by
  constructor
  · intro h
    by_contra hne
    have hany : (lines.drop 1).any (fun line => folded H line == folded H s) = true := by
      simpa using hne
    obtain ⟨line, hl, hf⟩ := List.any_eq_true.1 hany
    obtain ⟨i, hi⟩ := List.mem_iff_getElem?.1 hl
    rw [List.getElem?_drop] at hi
    have : (⟨s, 1 + i⟩ : Position) ∈ positions H [s] lines :=
      (mem_positions H [s] lines ⟨s, 1 + i⟩).2
        ⟨by simp, by show 1 + i ≠ 0; omega, line, hi, by simpa using hf⟩
    rw [h] at this
    cases this
  · intro h
    rw [List.eq_nil_iff_forall_not_mem]
    intro p hp
    obtain ⟨hs, hne, line, hl, hf⟩ := (mem_positions H [s] lines p).1 hp
    have hs' : p.segment = s := by simpa using hs
    have hany : (lines.drop 1).any (fun line => folded H line == folded H s) = true := by
      rw [List.any_eq_true]
      refine ⟨line, ?_, by rw [← hs']; simpa using hf⟩
      apply List.getElem?_mem (n := p.position - 1)
      rw [List.getElem?_drop, ← hl]
      congr 1
      omega
    rw [h] at hany
    cases hany

theorem map_segment_localized (lines : List String) (ps : List Position) :
    (localized lines ps).map (fun b => b.segment) = ps.map (fun p => p.segment) := by
  apply List.ext_getElem?
  intro i
  rw [List.getElem?_map, getElem?_localized, List.getElem?_map]
  cases ps[i]? <;> rfl

theorem keys_upsert (acc : List (String × Block)) (b : Block) :
    (upsert acc b).map Prod.fst =
      if b.segment ∈ acc.map Prod.fst then acc.map Prod.fst
      else acc.map Prod.fst ++ [b.segment] := by
  have hmap : ∀ l : List (String × Block), (l.map (fun entry : String × Block =>
      if entry.1 = b.segment then (entry.1, { entry.2 with stop := b.stop }) else entry)).map
        Prod.fst = l.map Prod.fst := by
    intro l
    rw [List.map_map]
    apply List.map_congr_left
    intro entry _
    simp only [Function.comp]
    split_ifs <;> rfl
  unfold upsert
  simp only [hmap]
  by_cases hk : b.segment ∈ acc.map Prod.fst
  · have : (acc.lookup b.segment).isNone = false := by
      cases hl : acc.lookup b.segment with
      | some v => rfl
      | none =>
        obtain ⟨e, he, hek⟩ := List.mem_map.1 hk
        have := List.lookup_eq_none_iff.1 hl e he
        simp [hek] at this
    rw [if_pos hk, this]
    simp
  · have : (acc.lookup b.segment).isNone = true := by
      cases hl : acc.lookup b.segment with
      | none => rfl
      | some v =>
        obtain ⟨l1, l2, h, _⟩ := List.lookup_eq_some_iff.1 hl
        exact absurd (by rw [h]; simp) hk
    rw [if_neg hk, this]
    simp

/-- The keys of the fold, in order: each segment of the blocks at its first place. -/
theorem keys_foldl_upsert (rs : List Block) (acc : List (String × Block)) :
    (rs.foldl upsert acc).map Prod.fst =
      (rs.map (fun b => b.segment)).foldl (fun ks s => if s ∈ ks then ks else ks ++ [s])
        (acc.map Prod.fst) := by
  induction rs generalizing acc with
  | nil => rfl
  | cons b rs ih => rw [List.foldl_cons, ih, keys_upsert, List.map_cons, List.foldl_cons]

/-- Every stored span bears its key as segment. -/
theorem foldl_upsert_segment (rs : List Block) (acc : List (String × Block))
    (hacc : ∀ e ∈ acc, e.2.segment = e.1) : ∀ e ∈ rs.foldl upsert acc, e.2.segment = e.1 := by
  induction rs generalizing acc with
  | nil => exact hacc
  | cons b rs ih =>
    rw [List.foldl_cons]
    apply ih
    intro e he
    rcases mem_upsert acc b e he with ⟨h, _⟩ | ⟨e0, h0, rfl⟩
    · exact hacc e h
    · rcases h0 with h0 | h0
      · exact hacc e0 h0
      · subst h0
        rfl

theorem foldl_addKey_replicate_like (ks : List String) (s : String) (xs : List String)
    (hxs : ∀ x ∈ xs, x = s) :
    xs.foldl (fun ks s => if s ∈ ks then ks else ks ++ [s]) ks =
      if xs = [] then ks else (if s ∈ ks then ks else ks ++ [s]) := by
  induction xs generalizing ks with
  | nil => rfl
  | cons x xs ih =>
    have hx : x = s := hxs x (List.mem_cons_self _ _)
    subst hx
    rw [List.foldl_cons, ih _ (fun y hy => hxs y (List.mem_cons_of_mem _ hy))]
    by_cases hk : x ∈ ks
    · simp [hk]
    · simp [hk]

/-- The segments of the positions give the same keys as the segments that are found. -/
theorem foldl_addKey_positions (H : Host) (segments lines : List String) (ks : List String) :
    ((positions H segments lines).map (fun p => p.segment)).foldl
        (fun ks s => if s ∈ ks then ks else ks ++ [s]) ks =
      (segments.filter (fun s =>
        (lines.drop 1).any (fun line => folded H line == folded H s))).foldl
          (fun ks s => if s ∈ ks then ks else ks ++ [s]) ks := by
  induction segments generalizing ks with
  | nil => rfl
  | cons s segments ih =>
    rw [positions_cons, List.map_append, List.foldl_append, ih,
      foldl_addKey_replicate_like ks s _ (fun x hx => by
        obtain ⟨p, hp, rfl⟩ := List.mem_map.1 hx
        exact segment_of_mem_positions_singleton H s lines p hp)]
    rw [List.filter_cons]
    by_cases hloc : (lines.drop 1).any (fun line => folded H line == folded H s) = true
    · have hne : positions H [s] lines ≠ [] := fun h0 => by
        rw [(positions_singleton_eq_nil H s lines).1 h0] at hloc
        cases hloc
      rw [if_pos hloc, List.foldl_cons, if_neg (by simpa using hne)]
    · have h0 := (positions_singleton_eq_nil H s lines).2 (by simpa using hloc)
      rw [if_neg hloc, if_pos (by simp [h0])]

theorem nodup_foldl_addKey (xs ks : List String) (hks : ks.Nodup) :
    (xs.foldl (fun ks s => if s ∈ ks then ks else ks ++ [s]) ks).Nodup := by
  induction xs generalizing ks with
  | nil => exact hks
  | cons x xs ih =>
    rw [List.foldl_cons]
    apply ih
    by_cases hx : x ∈ ks
    · rw [if_pos hx]; exact hks
    · rw [if_neg hx]
      exact List.Nodup.append hks (List.nodup_singleton x) (by simpa using hx)

theorem foldl_addKey_nodup (xs ks : List String) (hxs : xs.Nodup) (hd : ∀ x ∈ xs, x ∉ ks) :
    xs.foldl (fun ks s => if s ∈ ks then ks else ks ++ [s]) ks = ks ++ xs := by
  induction xs generalizing ks with
  | nil => simp
  | cons x xs ih =>
    rw [List.nodup_cons] at hxs
    rw [List.foldl_cons, if_neg (hd x (List.mem_cons_self _ _)), ih _ hxs.2]
    · simp
    · intro y hy
      rw [List.mem_append, List.mem_singleton]
      rintro (h | h)
      · exact hd y (List.mem_cons_of_mem _ hy) h
      · exact hxs.1 (h ▸ hy)

/-- The segments of the spans located, in the order of the object. -/
theorem map_segment_blocks (H : Host) (segments lines : List String) :
    (blocks H segments lines).map (fun b => b.segment) =
      (segments.filter (fun s =>
        (lines.drop 1).any (fun line => folded H line == folded H s))).foldl
          (fun ks s => if s ∈ ks then ks else ks ++ [s]) [] := by
  have hseg : (blocks H segments lines).map (fun b => b.segment)
      = (spans H segments lines).map Prod.fst := by
    unfold blocks
    rw [List.map_map]
    apply List.map_congr_left
    intro e he
    exact foldl_upsert_segment _ [] (by simp) e he
  rw [hseg]
  unfold spans
  rw [keys_foldl_upsert, List.map_map]
  have : (fun b : Block => b.segment) ∘ revise lines = fun b => b.segment := rfl
  rw [this, map_segment_localized]
  exact foldl_addKey_positions H segments lines []

/-! ## Spans of different segments -/

/-- The entries of `upsert`: those under other keys, unchanged; those under the key of the block,
with its `stop`; the block itself when its key is new. -/
theorem mem_upsert_cases (acc : List (String × Block)) (b : Block) (e : String × Block)
    (he : e ∈ upsert acc b) :
    (e ∈ acc ∧ e.1 ≠ b.segment) ∨
      (∃ e0 ∈ acc, e0.1 = b.segment ∧ e = (b.segment, { e0.2 with stop := b.stop })) ∨
      (e = (b.segment, b) ∧ ∀ e0 ∈ acc, e0.1 ≠ b.segment) := by
  unfold upsert at he
  obtain ⟨e0, he0, rfl⟩ := List.mem_map.1 he
  by_cases hn : (acc.lookup b.segment).isNone = true
  · rw [if_pos hn] at he0
    have hnone : acc.lookup b.segment = none := by
      cases hl : acc.lookup b.segment with
      | none => rfl
      | some v => rw [hl] at hn; cases hn
    have hkeys : ∀ e1 ∈ acc, e1.1 ≠ b.segment := by
      intro e1 he1 h1
      have := List.lookup_eq_none_iff.1 hnone e1 he1
      simp [h1] at this
    rcases List.mem_append.1 he0 with h | h
    · rw [if_neg (hkeys e0 h)]
      exact Or.inl ⟨h, hkeys e0 h⟩
    · rw [List.mem_singleton] at h
      subst h
      rw [if_pos rfl]
      exact Or.inr (Or.inr ⟨rfl, hkeys⟩)
  · rw [if_neg hn] at he0
    by_cases hk : e0.1 = b.segment
    · rw [if_pos hk]
      exact Or.inr (Or.inl ⟨e0, he0, hk, by rw [hk]⟩)
    · rw [if_neg hk]
      exact Or.inl ⟨he0, hk⟩

/-- The fold over blocks that come one after the other, the blocks of a segment side by side:
the spans stored under different keys come one after the other too. -/
theorem foldl_upsert_disjoint (rs : List Block)
    (hchain : rs.Pairwise (fun a b => a.stop ≤ b.start))
    (hgroup : ∀ (i j k : Nat) (a b c : Block), i < j → j < k → rs[i]? = some a → rs[j]? = some b →
      rs[k]? = some c → a.segment = c.segment → b.segment = a.segment) :
    (∀ e ∈ rs.foldl upsert [], ∃ l ∈ rs, l.segment = e.1 ∧ e.2.stop = l.stop) ∧
      (∀ e ∈ rs.foldl upsert [], ∀ e' ∈ rs.foldl upsert [], e.1 ≠ e'.1 →
        e.2.stop ≤ e'.2.start ∨ e'.2.stop ≤ e.2.start) ∧
      (∀ z, rs.getLast? = some z → ∀ e ∈ rs.foldl upsert [], ∀ e' ∈ rs.foldl upsert [],
        e.1 = z.segment → e'.1 ≠ z.segment → e'.2.stop ≤ e.2.start) := by
  induction rs using List.reverseRecOn with
  | nil => simp
  | append_singleton init b ih =>
    have hchain' := List.pairwise_append.1 hchain
    have hgroup' : ∀ (i j k : Nat) (a b c : Block), i < j → j < k → init[i]? = some a →
        init[j]? = some b →
        init[k]? = some c → a.segment = c.segment → b.segment = a.segment := by
      intro i j k a x c hij hjk hi hj hk hac
      have hk' := (List.getElem?_eq_some.1 hk).1
      exact hgroup i j k a x c hij hjk
        (by rw [List.getElem?_append_left (by omega)]; exact hi)
        (by rw [List.getElem?_append_left (by omega)]; exact hj)
        (by rw [List.getElem?_append_left hk']; exact hk) hac
    obtain ⟨I1, I2, I3⟩ := ih hchain'.1 hgroup'
    rw [List.foldl_append, List.foldl_cons, List.foldl_nil]
    -- every stored stop is the stop of a block, and blocks of `init` end before `b` starts
    have hbefore : ∀ e ∈ init.foldl upsert [], e.2.stop ≤ b.start := by
      intro e he
      obtain ⟨l, hl, _, hs⟩ := I1 e he
      rw [hs]
      exact hchain'.2.2 l hl b (List.mem_singleton_self b)
    -- an entry under the key of `b` is the rightmost one
    have hright : ∀ e0 ∈ init.foldl upsert [], e0.1 = b.segment →
        ∀ e' ∈ init.foldl upsert [], e'.1 ≠ b.segment → e'.2.stop ≤ e0.2.start := by
      intro e0 he0 hk e' he' hk'
      obtain ⟨l, hl, hlk, _⟩ := I1 e0 he0
      rcases List.eq_nil_or_concat init with h0 | ⟨init0, z, h0⟩
      · rw [h0] at hl
        cases hl
      · rw [List.concat_eq_append] at h0
        have hz : init.getLast? = some z := by rw [h0]; simp
        by_cases hzk : z.segment = b.segment
        · exact I3 z hz e0 he0 e' he' (by rw [hk, hzk]) (by rw [hzk]; exact hk')
        · exfalso
          obtain ⟨i, hi⟩ := List.mem_iff_getElem?.1 hl
          have hilt := (List.getElem?_eq_some.1 hi).1
          have hlen : init.length = init0.length + 1 := by rw [h0]; simp
          have hzi : init[init0.length]? = some z := by
            rw [h0, List.getElem?_append_right (le_refl _)]
            simp
          have hine : i ≠ init0.length := by
            rintro rfl
            rw [hzi] at hi
            cases Option.some.inj hi
            exact hzk (by rw [hlk, hk])
          apply hzk
          rw [hgroup i init0.length init.length l z b (by omega) (by omega)
            (by rw [List.getElem?_append_left hilt]; exact hi)
            (by rw [List.getElem?_append_left (by omega)]; exact hzi)
            (by rw [List.getElem?_append_right (le_refl _)]; simp)
            (by rw [hlk, hk]), hlk, hk]
    -- the entries under the key of `b` after the step start where they started, or at `b`
    have hkey : ∀ e ∈ upsert (init.foldl upsert []) b, e.1 = b.segment →
        ∀ e' ∈ init.foldl upsert [], e'.1 ≠ b.segment → e'.2.stop ≤ e.2.start := by
      intro e he hk e' he' hk'
      rcases mem_upsert_cases _ b e he with ⟨_, hne⟩ | ⟨e0, he0, hk0, rfl⟩ | ⟨rfl, _⟩
      · exact absurd hk hne
      · exact hright e0 he0 hk0 e' he' hk'
      · exact hbefore e' he'
    have hother : ∀ e ∈ upsert (init.foldl upsert []) b, e.1 ≠ b.segment →
        e ∈ init.foldl upsert [] := by
      intro e he hk
      rcases mem_upsert_cases _ b e he with ⟨h, _⟩ | ⟨e0, _, _, rfl⟩ | ⟨rfl, _⟩
      · exact h
      · exact absurd rfl hk
      · exact absurd rfl hk
    refine ⟨?_, ?_, ?_⟩
    · intro e he
      rcases mem_upsert_cases _ b e he with ⟨h, _⟩ | ⟨e0, _, _, rfl⟩ | ⟨rfl, _⟩
      · obtain ⟨l, hl, h1, h2⟩ := I1 e h
        exact ⟨l, List.mem_append_left _ hl, h1, h2⟩
      · exact ⟨b, by simp, rfl, rfl⟩
      · exact ⟨b, by simp, rfl, rfl⟩
    · intro e he e' he' hne
      by_cases hk : e.1 = b.segment
      · have hk' : e'.1 ≠ b.segment := fun h => hne (by rw [hk, h])
        exact Or.inr (hkey e he hk e' (hother e' he' hk') hk')
      · by_cases hk' : e'.1 = b.segment
        · exact Or.inl (hkey e' he' hk' e (hother e he hk) hk)
        · exact I2 e (hother e he hk) e' (hother e' he' hk') hne
    · intro z hz e he e' he' hk hk'
      have hzb : z = b := by
        rw [List.getLast?_append] at hz
        simpa using hz.symm
      subst hzb
      exact hkey e he hk e' (hother e' he' hk') hk'

/-- The positions of a list of pairwise distinct segments: between two positions of one segment
there are only positions of that segment. -/
theorem positions_grouped (H : Host) (segments lines : List String) (hnd : segments.Nodup) :
    ∀ (i j k : Nat) (p q r : Position), i < j → j < k →
      (positions H segments lines)[i]? = some p → (positions H segments lines)[j]? = some q →
      (positions H segments lines)[k]? = some r → p.segment = r.segment →
      q.segment = p.segment := by
  induction segments with
  | nil =>
    intro i j k p q r _ _ hi
    simp [positions] at hi
  | cons s segments ih =>
    rw [List.nodup_cons] at hnd
    intro i j k p q r hij hjk hi hj hk hpr
    rw [positions_cons] at hi hj hk
    have hA : ∀ (n : Nat) (x : Position), n < (positions H [s] lines).length →
        (positions H [s] lines ++ positions H segments lines)[n]? = some x → x.segment = s := by
      intro n x hn hx
      rw [List.getElem?_append_left hn] at hx
      exact segment_of_mem_positions_singleton H s lines x (List.getElem?_mem hx)
    have hB : ∀ (n : Nat) (x : Position), (positions H [s] lines).length ≤ n →
        (positions H [s] lines ++ positions H segments lines)[n]? = some x →
        (positions H segments lines)[n - (positions H [s] lines).length]? = some x := by
      intro n x hn hx
      rw [List.getElem?_append_right hn] at hx
      exact hx
    by_cases hkA : k < (positions H [s] lines).length
    · rw [hA j q (by omega) hj, hA i p (by omega) hi]
    · have hr := hB k r (by omega) hk
      have hrs : r.segment ∈ segments :=
        ((mem_positions H segments lines r).1 (List.getElem?_mem hr)).1
      by_cases hiA : i < (positions H [s] lines).length
      · exfalso
        apply hnd.1
        rw [← hA i p hiA hi, hpr]
        exact hrs
      · exact ih hnd.2 _ _ _ p q r (by omega) (by omega) (hB i p (by omega) hi)
          (hB j q (by omega) hj) hr hpr

/-- The trimmed provisional spans, by index. -/
theorem getElem?_revised (lines : List String) (ps : List Position) (i : Nat) (b : Block)
    (h : ((localized lines ps).map (revise lines))[i]? = some b) :
    ∃ p, ps[i]? = some p ∧ b.segment = p.segment ∧
      b.start = min (p.position + 1) lines.length ∧
      b.stop ≤ (match ps[i + 1]? with
        | some next => next.position
        | none => lines.length) := by
  rw [List.getElem?_map, getElem?_localized] at h
  cases hp : ps[i]? with
  | none => rw [hp] at h; cases h
  | some p =>
    rw [hp] at h
    cases Option.some.inj h
    exact ⟨p, rfl, rfl, rfl, revise_stop_le lines _⟩

/-- With the positions in increasing order, each trimmed provisional span ends before the next
ones start. -/
theorem revised_chain (lines : List String) (ps : List Position)
    (hlt : ∀ p ∈ ps, p.position < lines.length)
    (hsorted : (ps.map (fun p => p.position)).Pairwise (fun a b => a < b)) :
    ((localized lines ps).map (revise lines)).Pairwise (fun a b => a.stop ≤ b.start) := by
  rw [List.pairwise_iff_getElem]
  intro i j hi hj hij
  obtain ⟨p, hp, _, _, hstop⟩ := getElem?_revised lines ps i _ (List.getElem?_eq_getElem hi)
  obtain ⟨q, hq, _, hstart, _⟩ := getElem?_revised lines ps j _ (List.getElem?_eq_getElem hj)
  have hqlt := hlt q (List.getElem?_mem hq)
  rw [hstart]
  have hjlen := (List.getElem?_eq_some.1 hq).1
  obtain ⟨n, hn⟩ : ∃ n, ps[i + 1]? = some n := ⟨_, List.getElem?_eq_getElem (by omega)⟩
  rw [hn] at hstop
  have hnq : n.position ≤ q.position := by
    by_cases h1 : i + 1 = j
    · rw [h1, hq] at hn
      cases Option.some.inj hn
      exact le_refl _
    · exact le_of_lt (pairwise_getElem? (List.pairwise_map.1 hsorted) hn hq (by omega))
  simp only [] at hstop
  omega

/-! ## The summary pattern as an expression -/

theorem lang_star_cls (p : Char → Bool) (s : List Char) :
    Re.Lang (Re.star (Re.cls p)) s ↔ ∀ c ∈ s, p c = true := by
  constructor
  · rintro ⟨parts, rfl, hall⟩ c hc
    obtain ⟨u, hu, hcu⟩ := List.mem_flatten.1 hc
    obtain ⟨d, rfl, hd⟩ := hall u hu
    rw [List.mem_singleton] at hcu
    rw [hcu]
    exact hd
  · intro h
    refine ⟨s.map (fun c => [c]), ?_, ?_⟩
    · clear h
      induction s with
      | nil => rfl
      | cons c s ih => simp [List.flatten, ← ih]
    · intro u hu
      obtain ⟨c, hc, rfl⟩ := List.mem_map.1 hu
      exact ⟨c, rfl, h c hc⟩

theorem lang_plus_cls (p : Char → Bool) (s : List Char) :
    Re.Lang (Re.plus (Re.cls p)) s ↔ s ≠ [] ∧ ∀ c ∈ s, p c = true := by
  constructor
  · rintro ⟨u, v, rfl, ⟨c, rfl, hc⟩, hv⟩
    rw [lang_star_cls] at hv
    refine ⟨by simp, ?_⟩
    intro d hd
    rcases List.mem_append.1 hd with h | h
    · rw [List.mem_singleton] at h
      rw [h]
      exact hc
    · exact hv d h
  · rintro ⟨hne, h⟩
    obtain ⟨c, cs, rfl⟩ := List.exists_cons_of_ne_nil hne
    exact ⟨[c], cs, rfl, ⟨c, rfl, h c (List.mem_cons_self _ _)⟩,
      (lang_star_cls p cs).2 (fun d hd => h d (List.mem_cons_of_mem _ hd))⟩

theorem not_lineTerminator_of_twoUnits (c : Char) (h : twoUnits c = true) :
    isLineTerminator c = false := by
  simp only [twoUnits, decide_eq_true_eq] at h
  simp only [isLineTerminator, Bool.or_eq_false_iff, beq_eq_false_iff_ne, ne_eq]
  refine ⟨⟨⟨?_, ?_⟩, ?_⟩, ?_⟩ <;>
  · rintro rfl
    exact absurd h (by decide)

theorem dropWhile_append_stop {α : Type} (p : α → Bool) (xs ys : List α) (y : α)
    (h : ∀ x ∈ xs, p x = true) (hy : p y = false) :
    (xs ++ y :: ys).dropWhile p = y :: ys := by
  rw [dropWhile_eq_self_append p xs (y :: ys) h, List.dropWhile_cons, if_neg (by simp [hy])]

/-- The hand-written match agrees with the pattern as an expression: a line has a match exactly
when a text that the expression matches starts the line. -/
theorem summaryMatch_isSome_iff (line : String) :
    (summaryMatch line).isSome = true ↔ Re.testStart summaryRe line = true := by
  rw [Re.testStart_iff]
  constructor
  · intro h
    obtain ⟨e, he⟩ := Option.isSome_iff_exists.1 h
    have hcond : ∃ d1 d2 ws u v more rest,
        isDigit d1 = true ∧ isDigit d2 = true ∧ ws ≠ [] ∧ (∀ c ∈ ws, isSpace c = true) ∧
        isUpper u = true ∧ isLineTerminator v = false ∧ (∀ c ∈ more, (c != '\n') = true) ∧
        (twoUnits v = true ∨ more ≠ []) ∧
        line.data = d1 :: d2 :: '.' :: (ws ++ u :: v :: (more ++ rest)) := by
      unfold summaryMatch at he
      split at he
      · rename_i d1 d2 dot rest0 hdata
        split_ifs at he with hc
        simp only [Bool.and_eq_true, beq_iff_eq] at hc
        obtain ⟨⟨⟨h1, h2⟩, hdot⟩, hsp⟩ := hc
        subst hdot
        split at he
        · rename_i u v tail hdrop
          simp only [] at he
          split_ifs at he with hc2
          simp only [Bool.and_eq_true, Bool.not_eq_true', Bool.or_eq_true,
            List.isEmpty_eq_true] at hc2
          obtain ⟨⟨hu, hv⟩, hmore⟩ := hc2
          refine ⟨d1, d2, rest0.takeWhile isSpace, u, v, tail.takeWhile (fun c => c != '\n'),
            tail.dropWhile (fun c => c != '\n'), h1, h2, ?_, ?_, hu, hv, ?_, ?_, ?_⟩
          · cases rest0 with
            | nil => simp at hsp
            | cons c cs =>
              have hc : isSpace c = true := by simpa using hsp
              simp [List.takeWhile, hc]
          · intro c hc
            exact List.mem_takeWhile_imp hc
          · intro c hc
            exact List.mem_takeWhile_imp (p := fun c => c != '\n') hc
          · rcases hmore with h | h
            · exact Or.inl h
            · right
              intro h0
              rw [h0] at h
              cases h
          · rw [hdata, List.takeWhile_append_dropWhile, ← hdrop,
              List.takeWhile_append_dropWhile]
        · cases he
      · cases he
    obtain ⟨d1, d2, ws, u, v, more, rest, h1, h2, hws, hsp, hu, hv, hmore, hor, hdata⟩ := hcond
    refine ⟨d1 :: d2 :: '.' :: (ws ++ u :: v :: more), rest, by rw [hdata]; simp, ?_⟩
    refine ⟨[d1], d2 :: '.' :: (ws ++ u :: v :: more), rfl, ⟨d1, rfl, h1⟩,
      [d2], '.' :: (ws ++ u :: v :: more), rfl, ⟨d2, rfl, h2⟩,
      ['.'], ws ++ u :: v :: more, rfl, ⟨'.', rfl, by decide⟩,
      ws, u :: v :: more, rfl, (lang_plus_cls _ _).2 ⟨hws, hsp⟩,
      [u], v :: more, rfl, ⟨u, rfl, hu⟩, ?_⟩
    by_cases htwo : twoUnits v = true
    · exact Or.inr ⟨[v], more, rfl, ⟨v, rfl, htwo⟩, (lang_star_cls _ _).2 hmore⟩
    · have hm : more ≠ [] := by
        rcases hor with h | h
        · exact absurd h htwo
        · exact h
      exact Or.inl ⟨[v], more, rfl, ⟨v, rfl, by simp [hv, htwo]⟩,
        (lang_plus_cls _ _).2 ⟨hm, hmore⟩⟩
  · rintro ⟨m, rest, hdata, a1, r1, rfl, ⟨d1, rfl, h1⟩, a2, r2, rfl, ⟨d2, rfl, h2⟩,
      a3, r3, rfl, ⟨dot, rfl, hdot⟩, ws, r4, rfl, hws, a5, r5, rfl, ⟨u, rfl, hu⟩, hrest⟩
    have hdot' : dot = '.' := by simpa using hdot
    subst hdot'
    obtain ⟨hwsne, hsp⟩ := (lang_plus_cls _ _).1 hws
    have hsu : isSpace u = false := isSpace_of_isUpper u hu
    obtain ⟨v, more, hr5, hv, hmore, hor⟩ : ∃ v more, r5 = v :: more ∧
        isLineTerminator v = false ∧ (∀ c ∈ more, (c != '\n') = true) ∧
        (twoUnits v = true ∨ more ≠ []) := by
      rcases hrest with ⟨a, more, rfl, ⟨v, rfl, hv⟩, hm⟩ | ⟨a, more, rfl, ⟨v, rfl, hv⟩, hm⟩
      · obtain ⟨hne, hall⟩ := (lang_plus_cls _ _).1 hm
        simp only [Bool.and_eq_true, Bool.not_eq_true'] at hv
        exact ⟨v, more, rfl, hv.1, hall, Or.inr hne⟩
      · exact ⟨v, more, rfl, not_lineTerminator_of_twoUnits v hv,
          (lang_star_cls _ _).1 hm, Or.inl hv⟩
    subst hr5
    have hline : line.data = d1 :: d2 :: '.' :: (ws ++ u :: (v :: (more ++ rest))) := by
      rw [hdata]; simp
    obtain ⟨w0, ws', rfl⟩ := List.exists_cons_of_ne_nil hwsne
    have hw0 : isSpace w0 = true := hsp w0 (List.mem_cons_self _ _)
    have hdrop : ((w0 :: ws') ++ u :: (v :: (more ++ rest))).dropWhile isSpace
        = u :: (v :: (more ++ rest)) := dropWhile_append_stop isSpace _ _ u hsp hsu
    have htake : twoUnits v = true ∨
        ((more ++ rest).takeWhile (fun c => c != '\n')) ≠ [] := by
      rcases hor with h | h
      · exact Or.inl h
      · right
        obtain ⟨c, cs, rfl⟩ := List.exists_cons_of_ne_nil h
        have hc := hmore c (List.mem_cons_self _ _)
        rw [List.cons_append, List.takeWhile_cons, if_pos hc]
        simp
    unfold summaryMatch
    rw [hline]
    simp only [h1, h2, beq_self_eq_true, Bool.and_self, List.cons_append, List.head?_cons,
      Option.map_some', Option.getD_some, hw0, if_true]
    rw [List.cons_append] at hdrop
    rw [hdrop]
    simp only [hu, hv, Bool.not_false, Bool.and_self, Bool.true_and]
    rcases htake with h | h
    · simp [h]
    · have : ((more ++ rest).takeWhile (fun c => c != '\n')).isEmpty = false := by
        cases hh : (more ++ rest).takeWhile (fun c => c != '\n') with
        | nil => exact absurd hh h
        | cons x xs => rfl
      simp [this]

/-! ## The output -/

/-- When no segment faults, `parsed` has one entry for each span, in order. -/
theorem length_parsedFrom (H : Host) (lines : List String) (bs : List Block)
    (out : List (List OutputRow)) (h : parsedFrom H lines bs = .ok out) :
    out.length = bs.length := by
  induction bs generalizing out with
  | nil =>
    rw [parsedFrom] at h
    cases h
    rfl
  | cons b bs ih =>
    rw [parsedFrom] at h
    cases hrows : parseSegment H (slice lines b.start b.stop) with
    | error fault =>
      rw [hrows] at h
      cases h
    | ok rows =>
      rw [hrows] at h
      cases hrest : parsedFrom H lines bs with
      | error fault =>
        rw [hrest] at h
        cases h
      | ok others =>
        rw [hrest] at h
        cases h
        rw [List.length_cons, List.length_cons, ih others hrest]

/-! # The claims -/

/-- Claim C1 fails as stated. On the span of the specification the parser returns two rows, not
one: the trailing marker starts a row of its own. With an empty item line the window is
de-skewed and `cest` is the code line. A description line with two adjacent spaces is not kept
as it is. -/
theorem parseSegment_spec_example :
    (¬ ∃ row, parseSegment exampleHost
        ["DESCRIÇÃO", "", "ITEM1", "", "CEST1", "1.1", "", "some", "description", "text", "1.2"]
          = .ok [row]) ∧
      parseSegment exampleHost
        ["DESCRIÇÃO", "", "", "", "CEST1", "1.1", "", "some", "description", "text", "1.2"]
          = .ok [⟨some "", some "1.1", [], "some description text", 7⟩,
            ⟨some "text", none, [], "", 3⟩] ∧
      parseSegment exampleHost
        ["DESCRIÇÃO", "", "ITEM1", "", "CEST1", "1.1", "", "some  text", "1.2"]
          = .ok [⟨some "ITEM1", some "CEST1", ["1.1"], "some text", 6⟩,
            ⟨some "1.2", none, [], "", 3⟩] := by
  refine ⟨?_, by decide, by decide⟩
  have h : parseSegment exampleHost
      ["DESCRIÇÃO", "", "ITEM1", "", "CEST1", "1.1", "", "some", "description", "text", "1.2"]
        = .ok [⟨some "ITEM1", some "CEST1", ["1.1"], "some description text", 8⟩,
          ⟨some "1.2", none, [], "", 3⟩] := by decide
  rintro ⟨row, hrow⟩
  rw [h] at hrow
  cases hrow

/-- Claim C1, amended: on a span `["DESCRIÇÃO", "", I, "", C, n, "", d1, ..., dk, m]` with `I` not
empty, `n` a non-empty line of the `ncms` run (every dotted code is one, see
`isNcmLine_of_isMarker`), each `d_i` non-empty and neither NCM-like nor a marker, and `m` a marker,
`parseSegment` returns two rows: the first has item `I`, cest `C`, ncms `[n]` and the description
lines joined by single spaces with every run of two or more white-space characters replaced by
one space; the marker `m` starts the second row, which has item `m`, no cest, no ncms and an
empty description. -/
theorem parseSegment_row_and_marker (H : Host) (I C n m : String) (ds : List String)
    (hH : H.toUpperCase "DESCRIÇÃO" = "DESCRIÇÃO")
    (hI : I ≠ "") (hn : isNcmLine n = true) (hn0 : n ≠ "") (hk : ds ≠ [])
    (hd : ∀ d ∈ ds, d ≠ "" ∧ isNcmLine d = false ∧ isMarker d = false)
    (hm : isMarker m = true) :
    parseSegment H (["DESCRIÇÃO", "", I, "", C, n, ""] ++ ds ++ [m]) =
      .ok [⟨some I, some C, [n], collapseSpaces (" ".intercalate ds), ds.length + 5⟩,
        ⟨some m, none, [], "", 3⟩] := by
  rw [← join_eq_intercalate]
  have hbody : ((["DESCRIÇÃO", "", I, "", C, n, ""] ++ ds ++ [m]).dropWhile
      (fun line => H.toUpperCase line != "DESCRIÇÃO")).drop 1
      = ["", I, "", C, n, ""] ++ ds ++ [m] := by
    simp [List.dropWhile, hH]
  have hfirst := takeSingleTableRow_first I C n m ds hI hn hn0 hk hd hm
  obtain ⟨init, dl, rfl⟩ : ∃ init dl, ds = init ++ [dl] := by
    rcases List.eq_nil_or_concat ds with h | ⟨init, dl, h⟩
    · exact absurd h hk
    · exact ⟨init, dl, by rw [h, List.concat_eq_append]⟩
  have hdl : dl ≠ "" := (hd dl (by simp)).1
  have hdrop : (["", I, "", C, n, ""] ++ (init ++ [dl]) ++ [m]).drop ((init ++ [dl]).length + 5)
      = [dl, m] := by
    have : ["", I, "", C, n, ""] ++ (init ++ [dl]) ++ [m]
        = (["", I, "", C, n, ""] ++ init) ++ [dl, m] := by simp
    rw [this, List.drop_append_of_le_length (by simp)]
    simp
  have hlen : (["", I, "", C, n, ""] ++ (init ++ [dl]) ++ [m]).length = init.length + 8 := by
    simp
  unfold parseSegment
  simp only [hbody]
  rw [if_neg (by rw [hlen]; omega), hfirst]
  simp only []
  rw [hlen, rowLoop_step _ _ _ _ _ (by rw [hlen]; simp) (by rw [hdrop]; exact takeSingleTableRow_last dl m hdl),
    rowLoop_done _ _ _ _ (by rw [hlen]; simp)]
  rfl

/-- The amended claim C1 on the span of the specification. -/
theorem parseSegment_row_and_marker_witness :
    parseSegment exampleHost
      ["DESCRIÇÃO", "", "ITEM1", "", "CEST1", "1.1", "", "some", "description", "text", "1.2"] =
      .ok [⟨some "ITEM1", some "CEST1", ["1.1"], "some description text", 8⟩,
        ⟨some "1.2", none, [], "", 3⟩] :=
  parseSegment_row_and_marker exampleHost "ITEM1" "CEST1" "1.1" "1.2"
    ["some", "description", "text"] (by decide) (by decide) (by decide) (by decide) (by decide)
    (by decide) (by decide)

/-- Claim C2 fails as stated: with a heading matched at lines 1 and 3, the last occurrence has
the trimmed span from 4 to 5, and the span stored for the segment starts at 2. -/
theorem spans_duplicate_heading :
    (localized ["x", "A", "y", "A", "z"]
        (positions exampleHost ["A"] ["x", "A", "y", "A", "z"])).map
          (revise ["x", "A", "y", "A", "z"]) = [⟨"A", 2, 3⟩, ⟨"A", 4, 5⟩] ∧
      spans exampleHost ["A"] ["x", "A", "y", "A", "z"] = [("A", ⟨"A", 2, 5⟩)] ∧
      (spans exampleHost ["A"] ["x", "A", "y", "A", "z"]).lookup "A" ≠ some ⟨"A", 4, 5⟩ := by
  decide

/-- Claim C2, amended: the span stored for a segment has the `start` of the first provisional
span of that segment and the `end` of its last trimmed provisional span; no span is stored for a
segment that has none. -/
theorem spans_lookup (H : Host) (segments lines : List String) (s : String) :
    (spans H segments lines).lookup s =
      (((localized lines (positions H segments lines)).map (revise lines)).find?
        (fun b => b.segment == s)).bind (fun first =>
      (((localized lines (positions H segments lines)).map (revise lines)).reverse.find?
        (fun b => b.segment == s)).map (fun last =>
          { segment := first.segment, start := first.start, stop := last.stop })) := by
  unfold spans
  rw [lookup_foldl_upsert]
  generalize (localized lines (positions H segments lines)).map (revise lines) = rs
  cases h1 : rs.reverse.find? (fun b => b.segment == s) with
  | none =>
    cases h2 : rs.find? (fun b => b.segment == s) <;> simp
  | some l =>
    cases h2 : rs.find? (fun b => b.segment == s) <;> simp

/-- Claim C3 fails on the code: when the header is followed by exactly one line, whatever the
line, `takeSingleTableRow` returns `null` for the first row and reading its `skip` throws. -/
theorem parseSegment_header_one_line (x : String) :
    parseSegment exampleHost ["DESCRIÇÃO", x] = .error .typeError := by
  have h : (["DESCRIÇÃO", x].dropWhile
      (fun line => exampleHost.toUpperCase line != "DESCRIÇÃO")).drop 1 = [x] := by
    have hH : exampleHost.toUpperCase "DESCRIÇÃO" = "DESCRIÇÃO" := by decide
    simp [List.dropWhile, hH]
  unfold parseSegment
  simp only [h]
  rfl

/-- Claim C4 fails as stated: with the headings in the body in the reverse of the order of the
summary, the span of the first segment ends before it starts. -/
theorem blocks_start_gt_stop :
    blocks exampleHost ["A", "B"] ["x", "B", "A"] = [⟨"A", 3, 1⟩, ⟨"B", 2, 3⟩] ∧
      ¬ ∀ b ∈ blocks exampleHost ["A", "B"] ["x", "B", "A"],
        b.start ≤ b.stop ∧ b.stop ≤ ["x", "B", "A"].length := by
  decide

/-- Claim C4, amended: every span of the segment locator has `start` and `end` at most the number
of lines, and `start ≤ end` when the headings found, taken segment by segment in the order of
the summary and line by line within a segment, stand at strictly increasing positions. -/
theorem blocks_bounds (H : Host) (segments lines : List String) (b : Block)
    (hb : b ∈ blocks H segments lines) :
    b.start ≤ lines.length ∧ b.stop ≤ lines.length ∧
      (((positions H segments lines).map (fun p => p.position)).Pairwise (fun a b => a < b) →
        b.start ≤ b.stop) := by
  obtain ⟨e, he, rfl⟩ := List.mem_map.1 hb
  unfold spans at he
  have hloc := localized_bounds lines (positions H segments lines)
    (fun p hp => position_lt H segments lines p hp)
  have h1 := foldl_upsert_bounds (fun n => n ≤ lines.length) (fun n => n ≤ lines.length)
    ((localized lines (positions H segments lines)).map (revise lines)) []
    (by simp) (by
      intro x hx
      obtain ⟨y, hy, rfl⟩ := List.mem_map.1 hx
      exact ⟨(hloc y hy).1, le_trans (revise_stop_le lines y) (hloc y hy).2⟩) e he
  refine ⟨h1.1, h1.2, fun hsorted => ?_⟩
  refine foldl_upsert_le _ [] ?_ ?_ (by simp) e he
  · rw [List.pairwise_map]
    exact localized_pairwise lines _ hsorted
  · intro x hx
    obtain ⟨y, hy, rfl⟩ := List.mem_map.1 hx
    exact le_revise_stop lines y (localized_le lines _ hsorted y hy)

/-- The amended claim C4 on two segments found in the order of the summary. -/
theorem blocks_bounds_witness :
    (⟨"A", 2, 3⟩ : Block) ∈
        blocks exampleHost ["A", "B"] ["x", "a", "y", "see Anexo II", "B", "z"] ∧
      (2 ≤ 6 ∧ 3 ≤ 6 ∧ 2 ≤ 3) :=
  have hb : (⟨"A", 2, 3⟩ : Block) ∈
      blocks exampleHost ["A", "B"] ["x", "a", "y", "see Anexo II", "B", "z"] := by decide
  have h := blocks_bounds exampleHost ["A", "B"] ["x", "a", "y", "see Anexo II", "B", "z"] _ hb
  ⟨hb, h.1, h.2.1, h.2.2 (by decide)⟩

/-- Claim C5 fails as stated: the description "AB", of two UTF-16 code units, does not match the
summary pattern, which asks for three, and the line is dropped. -/
theorem parseSegmentsSummary_short :
    parseSegmentsSummary ["01. AB"] = [] ∧ parseSegmentsSummary ["01. AB"] ≠ [⟨"01", "AB"⟩] := by
  decide

/-- Claim C5, amended: for a line made of two decimal digits, then `". "`, then a text `D` that
starts with a capital `A` to `Z` and contains no line terminator, `parseSegmentsSummary` on that
single line returns the one entry of index the two digits and description `D` when `D` has three
UTF-16 code units or more, and returns no entry when `D` has fewer. -/
theorem parseSegmentsSummary_line (d1 d2 : Char) (D : String)
    (h1 : isDigit d1 = true) (h2 : isDigit d2 = true)
    (hup : D.data.head?.map isUpper = some true)
    (hnl : ∀ c ∈ D.data, isLineTerminator c = false) :
    parseSegmentsSummary [⟨d1 :: d2 :: '.' :: ' ' :: D.data⟩] =
      if 3 ≤ codeUnits D then [⟨⟨[d1, d2]⟩, D⟩] else [] := by
  have h := summaryMatch_line_units d1 d2 D h1 h2 hup hnl
  by_cases hlen : 3 ≤ codeUnits D
  · rw [if_pos hlen] at h ⊢
    simp [parseSegmentsSummary, h]
  · rw [if_neg hlen] at h ⊢
    simp [parseSegmentsSummary, h]

/-- The amended claim C5 on the lines "01. Autopeças" and "01. A😀", whose texts have three code
units or more, and on "01. AB" and "01. A", whose texts have fewer. -/
theorem parseSegmentsSummary_line_witness :
    parseSegmentsSummary ["01. Autopeças"] = [⟨"01", "Autopeças"⟩] ∧
      parseSegmentsSummary ["01. A😀"] = [⟨"01", "A😀"⟩] ∧
      parseSegmentsSummary ["01. AB"] = [] ∧ parseSegmentsSummary ["01. A"] = [] :=
  ⟨(parseSegmentsSummary_line '0' '1' "Autopeças" (by decide) (by decide) (by decide)
      (by decide)).trans (if_pos (by decide)),
    (parseSegmentsSummary_line '0' '1' "A😀" (by decide) (by decide) (by decide)
      (by decide)).trans (if_pos (by decide)),
    (parseSegmentsSummary_line '0' '1' "AB" (by decide) (by decide) (by decide)
      (by decide)).trans (if_neg (by decide)),
    (parseSegmentsSummary_line '0' '1' "A" (by decide) (by decide) (by decide)
      (by decide)).trans (if_neg (by decide))⟩

/-- Claim C6: `normalizeNcms` removes the empty strings; if nothing remains it returns `[]`; if
the first remaining entry starts with "Capítulo" it returns the remaining entries joined by single
spaces, as one entry; otherwise it returns the remaining entries, unchanged and in order. So
`["Capítulo 1", "Capítulo 2"]` gives `["Capítulo 1 Capítulo 2"]` and `["1.1", "", "2.2"]` gives
`["1.1", "2.2"]`. -/
theorem normalizeNcms_spec (ncms : List String) :
    normalizeNcms ncms =
        (if ncms.filter (fun s => s ≠ "") = [] then []
        else if "Capítulo".data <+: ((ncms.filter (fun s => s ≠ "")).headD "").data then
          [" ".intercalate (ncms.filter (fun s => s ≠ ""))]
        else ncms.filter (fun s => s ≠ "")) ∧
      normalizeNcms ["Capítulo 1", "Capítulo 2"] = ["Capítulo 1 Capítulo 2"] ∧
      normalizeNcms ["1.1", "", "2.2"] = ["1.1", "2.2"] := by
  refine ⟨?_, by decide, by decide⟩
  have hf : ncms.filter (fun ncm => ncm.length != 0) = ncms.filter (fun s => s ≠ "") := by
    congr 1
    funext s
    by_cases h : s = ""
    · subst h; rfl
    · have h1 : s.length ≠ 0 := fun h0 => h ((length_eq_zero_iff s).1 h0)
      simp [h, h1]
  unfold normalizeNcms
  simp only [hf, List.length_eq_zero, ← join_eq_intercalate]
  by_cases h0 : ncms.filter (fun s => s ≠ "") = []
  · rw [if_pos h0, if_pos h0]
  · rw [if_neg h0, if_neg h0]
    by_cases hc : "Capítulo".data <+: ((ncms.filter (fun s => s ≠ "")).headD "").data
    · rw [if_pos hc, if_pos ((testStart_capitulosRe _).2 hc)]
    · rw [if_neg hc, if_neg (fun h => hc ((testStart_capitulosRe _).1 h))]

/-- Claim C7: for a provisional span of five lines or more whose last line contains "Anexo II",
the trimmed end is at most the index of that last line (and the start is unchanged), so the line
is outside the range from `start` to `end`. -/
theorem revise_anexo (lines : List String) (block : Block) (last : String)
    (hlen : block.start + 5 ≤ block.stop)
    (hlast : lines[block.stop - 1]? = some last)
    (h : "Anexo II".data <:+: last.data) :
    (revise lines block).start = block.start ∧ (revise lines block).stop ≤ block.stop - 1 := by
  have hL : block.stop - 1 < lines.length := by
    rcases List.getElem?_eq_some.1 hlast with ⟨h1, _⟩
    exact h1
  have hs : slice lines block.start block.stop
      = (slice lines block.start (block.stop - 1)) ++ [last] := by
    unfold slice
    have : block.stop = (block.stop - 1) + 1 := by omega
    conv_lhs => rw [this]
    rw [List.take_succ, hlast]
    simp only [Option.toList]
    rw [List.drop_append_of_le_length]
    simp; omega
  have hlen2 : (slice lines block.start (block.stop - 1)).length = block.stop - 1 - block.start := by
    simp [slice]; omega
  have hm : ∃ rest, (takeRight 5 (slice lines block.start block.stop)).reverse = last :: rest
      ∧ rest.length = 4 := by
    rw [hs]
    generalize slice lines block.start (block.stop - 1) = pre at hlen2
    have h5 : (pre ++ [last]).length - 5 = pre.length - 4 := by
      rw [List.length_append, List.length_singleton]; omega
    refine ⟨(pre.drop (pre.length - 4)).reverse, ?_, ?_⟩
    · unfold takeRight
      rw [h5, List.drop_append_of_le_length (by omega), List.reverse_append]
      rfl
    · rw [List.length_reverse, List.length_drop]; omega
  obtain ⟨rest, hr, hr4⟩ := hm
  have hA : "Anexo ".data <:+: last.data := by
    obtain ⟨u, v, huv⟩ := h
    exact ⟨u, "II".data ++ v, by rw [← huv]; simp⟩
  constructor
  · rfl
  · show block.stop - numberOfLinesToSkip _ ≤ _
    rw [hr, numberOfLinesToSkip_cons last rest hA, hr4]
    omega

/-- Claim C7 on a span of five lines that ends with "see Anexo II". -/
theorem revise_anexo_witness :
    (revise ["x", "A", "a", "b", "c", "d", "see Anexo II", "B", "q"] ⟨"A", 2, 7⟩).start = 2 ∧
      (revise ["x", "A", "a", "b", "c", "d", "see Anexo II", "B", "q"] ⟨"A", 2, 7⟩).stop
        ≤ 7 - 1 :=
  revise_anexo ["x", "A", "a", "b", "c", "d", "see Anexo II", "B", "q"] ⟨"A", 2, 7⟩
    "see Anexo II" (by decide) (by decide) (by decide)

/-- Claim C8: a text is a key of the output of the segment locator exactly when it is one of the
segment descriptions and some line of strictly positive index equals it once folded; a segment
matched at line 0 only, or not at all, is absent. -/
theorem mem_keys_spans (H : Host) (segments lines : List String) (s : String) :
    s ∈ (spans H segments lines).map Prod.fst ↔
      s ∈ segments ∧ ∃ i line, 0 < i ∧ lines[i]? = some line ∧ folded H line = folded H s := by
  unfold spans
  rw [mem_keys_foldl_upsert]
  simp only [List.map_nil, List.not_mem_nil, false_or, List.mem_map]
  constructor
  · rintro ⟨b, ⟨y, hy, rfl⟩, rfl⟩
    obtain ⟨i, p, hp, hseg, _, _⟩ := mem_localized lines _ y hy
    obtain ⟨h1, h2, line, h3, h4⟩ :=
      (mem_positions H segments lines p).1 (List.getElem?_mem hp)
    rw [revise_segment, hseg]
    exact ⟨h1, p.position, line, Nat.pos_of_ne_zero h2, h3, h4⟩
  · rintro ⟨hs, i, line, hi, hl, hf⟩
    have hp : (⟨s, i⟩ : Position) ∈ positions H segments lines :=
      (mem_positions H segments lines ⟨s, i⟩).2 ⟨hs, Nat.pos_iff_ne_zero.1 hi, line, hl, hf⟩
    obtain ⟨k, hk⟩ := List.mem_iff_getElem?.1 hp
    have hloc := getElem?_localized lines (positions H segments lines) k
    rw [hk] at hloc
    exact ⟨_, ⟨_, List.getElem?_mem hloc, rfl⟩, rfl⟩

/-- Claim C9: a span in which no line other than the last equals "DESCRIÇÃO" once in upper case
(no such line at all, or the last line only) gives the empty sequence of rows. -/
theorem parseSegment_no_header (H : Host) (lines : List String)
    (h : ∀ line ∈ lines.dropLast, H.toUpperCase line ≠ "DESCRIÇÃO") :
    parseSegment H lines = .ok [] := by
  have hd : ((lines.dropWhile (fun line => H.toUpperCase line != "DESCRIÇÃO")).drop 1) = [] := by
    rcases List.eq_nil_or_concat lines with rfl | ⟨init, last, rfl⟩
    · rfl
    · rw [List.concat_eq_append] at h ⊢
      rw [List.dropLast_concat] at h
      rw [dropWhile_eq_self_append _ _ _ (fun x hx => by simpa using h x hx)]
      rw [List.dropWhile_cons]
      split_ifs <;> rfl
  unfold parseSegment
  simp only [hd, List.length_nil, if_true]

/-- Claim C9 on a span whose last line is the only header. -/
theorem parseSegment_no_header_witness :
    (∀ line ∈ ["a", "b", "DESCRIÇÃO"].dropLast, exampleHost.toUpperCase line ≠ "DESCRIÇÃO") ∧
      parseSegment exampleHost ["a", "b", "DESCRIÇÃO"] = .ok [] :=
  ⟨by decide, parseSegment_no_header exampleHost ["a", "b", "DESCRIÇÃO"] (by decide)⟩

/-- Claim C10 fails on the code when the earlier window is de-skewed: the lines after the header
begin with two empty lines, the description run of the first row ("some text") is ended by the
marker "2.2", and the item of the following row is "some text", not "2.2"; no row has the item
"2.2". -/
theorem parseSegment_deskewed_chain :
    parseSegment exampleHost
        ["DESCRIÇÃO", "", "", "ITEM1", "", "CEST1", "1.1", "some text", "2.2", "", "CEST2",
          "3.3", "more"]
      = .ok [⟨some "ITEM1", some "CEST1", ["1.1"], "some text", 5⟩,
          ⟨some "some text", some "", [], "CEST2", 4⟩,
          ⟨some "3.3", none, [], "", 3⟩] ∧
      isMarker "2.2" = true := by
  decide

/-- Claim C11 fails as stated: with the third segment of the summary found between the first and
the second, the span of the first segment runs over lines 2 and 3 and the span of the third over
lines 3 to 5: line 3 is in both. -/
theorem blocks_overlap :
    blocks exampleHost ["A", "B", "C"] ["x", "A", "C", "c", "B", "b"]
        = [⟨"A", 2, 4⟩, ⟨"B", 5, 2⟩, ⟨"C", 3, 6⟩] ∧
      ¬ ∀ b1 ∈ blocks exampleHost ["A", "B", "C"] ["x", "A", "C", "c", "B", "b"],
        ∀ b2 ∈ blocks exampleHost ["A", "B", "C"] ["x", "A", "C", "c", "B", "b"],
          b1.segment ≠ b2.segment →
            ¬ ((b1.start ≤ 3 ∧ 3 < b1.stop) ∧ (b2.start ≤ 3 ∧ 3 < b2.stop)) := by
  decide

/-- Claim C11, amended: for pairwise distinct segment descriptions whose headings, taken segment
by segment in the order of the summary and line by line within a segment, stand at strictly
increasing positions, the spans of two different segments of the output come one after the
other: no line index is in both half-open ranges. -/
theorem blocks_disjoint (H : Host) (segments lines : List String) (hnd : segments.Nodup)
    (hsorted : ((positions H segments lines).map (fun p => p.position)).Pairwise
      (fun a b => a < b))
    (b1 b2 : Block) (h1 : b1 ∈ blocks H segments lines) (h2 : b2 ∈ blocks H segments lines)
    (hne : b1.segment ≠ b2.segment) :
    (b1.stop ≤ b2.start ∨ b2.stop ≤ b1.start) ∧
      ∀ i, ¬ ((b1.start ≤ i ∧ i < b1.stop) ∧ (b2.start ≤ i ∧ i < b2.stop)) := by
  obtain ⟨e1, he1, rfl⟩ := List.mem_map.1 h1
  obtain ⟨e2, he2, rfl⟩ := List.mem_map.1 h2
  have hk1 := foldl_upsert_segment _ [] (by simp) e1 he1
  have hk2 := foldl_upsert_segment _ [] (by simp) e2 he2
  have hgroup : ∀ (i j k : Nat) (a b c : Block), i < j → j < k →
      ((localized lines (positions H segments lines)).map (revise lines))[i]? = some a →
      ((localized lines (positions H segments lines)).map (revise lines))[j]? = some b →
      ((localized lines (positions H segments lines)).map (revise lines))[k]? = some c →
      a.segment = c.segment → b.segment = a.segment := by
    intro i j k a b c hij hjk hi hj hk hac
    obtain ⟨p, hp, hpa, _, _⟩ := getElem?_revised lines _ i a hi
    obtain ⟨q, hq, hqb, _, _⟩ := getElem?_revised lines _ j b hj
    obtain ⟨r, hr, hrc, _, _⟩ := getElem?_revised lines _ k c hk
    rw [hqb, hpa]
    exact positions_grouped H segments lines hnd i j k p q r hij hjk hp hq hr
      (by rw [← hpa, ← hrc]; exact hac)
  have hdis := (foldl_upsert_disjoint _
    (revised_chain lines _ (fun p hp => position_lt H segments lines p hp) hsorted)
    hgroup).2.1 e1 he1 e2 he2 (by rw [← hk1, ← hk2]; exact hne)
  refine ⟨hdis, fun i hi => ?_⟩
  omega

/-- The amended claim C11 on two segments found in the order of the summary. -/
theorem blocks_disjoint_witness :
    ((⟨"A", 2, 3⟩ : Block).stop ≤ (⟨"B", 5, 6⟩ : Block).start ∨
        (⟨"B", 5, 6⟩ : Block).stop ≤ (⟨"A", 2, 3⟩ : Block).start) ∧
      ∀ i, ¬ (((⟨"A", 2, 3⟩ : Block).start ≤ i ∧ i < (⟨"A", 2, 3⟩ : Block).stop) ∧
        ((⟨"B", 5, 6⟩ : Block).start ≤ i ∧ i < (⟨"B", 5, 6⟩ : Block).stop)) :=
  blocks_disjoint exampleHost ["A", "B"] ["x", "a", "y", "see Anexo II", "B", "z"]
    (by decide) (by decide) ⟨"A", 2, 3⟩ ⟨"B", 5, 6⟩ (by decide) (by decide) (by decide)

/-- Claim C12 fails as stated: with two lines after the header the row has no `cest`, and when
the two lines are empty it has no `item` either. -/
theorem parseSegment_missing_fields :
    parseSegment exampleHost ["DESCRIÇÃO", "a", "b"] = .ok [⟨some "b", none, [], "", 3⟩] ∧
      parseSegment exampleHost ["DESCRIÇÃO", "", ""] = .ok [⟨none, none, [], "", 3⟩] ∧
      ¬ ∀ rows, parseSegment exampleHost ["DESCRIÇÃO", "a", "b"] = .ok rows →
        ∀ r ∈ rows, r.item.isSome = true ∧ r.cest.isSome = true := by
  refine ⟨by decide, by decide, ?_⟩
  intro h
  have := h [⟨some "b", none, [], "", 3⟩] (by decide) ⟨some "b", none, [], "", 3⟩ (by simp)
  exact absurd this.2 (by decide)

/-- Claim C12, amended: every row `parseSegment` returns is taken from a window of two lines or
more of the lines after the header; its item is line 1 and its cest is line 3 of the window once
de-skewed, so the item is a present string when the de-skewed window has two lines or more, and
the cest is a present string exactly when it has four lines or more. -/
theorem parseSegment_fields (H : Host) (lines : List String) (rows : List TableRow)
    (h : parseSegment H lines = .ok rows) (row : TableRow) (hrow : row ∈ rows) :
    ∃ o w, w = ((lines.dropWhile (fun line => H.toUpperCase line != "DESCRIÇÃO")).drop 1).drop o ∧
      2 ≤ w.length ∧ row.item = (deskew w)[1]? ∧ row.cest = (deskew w)[3]? ∧
      (2 ≤ (deskew w).length → ∃ item, row.item = some item) ∧
      ((∃ cest, row.cest = some cest) ↔ 4 ≤ (deskew w).length) := by
  obtain ⟨o, ho⟩ := parseSegment_rows H lines rows h row hrow
  refine ⟨o, _, rfl, length_of_takeSingleTableRow _ row ho, ?_⟩
  rw [takeSingleTableRow_eq _ (length_of_takeSingleTableRow _ row ho)] at ho
  cases Option.some.inj ho
  refine ⟨rfl, rfl, fun h2 => ?_, ?_⟩
  · exact ⟨_, List.getElem?_eq_getElem (by omega)⟩
  · constructor
    · rintro ⟨cest, hc⟩
      exact (List.getElem?_eq_some.1 hc).1
    · intro h4
      exact ⟨_, List.getElem?_eq_getElem (by omega)⟩

/-- The amended claim C12 on the span of the specification: the first row has both fields. -/
theorem parseSegment_fields_witness :
    ∃ o w, w = ((["DESCRIÇÃO", "", "ITEM1", "", "CEST1", "1.1", "", "some", "1.2"].dropWhile
        (fun line => exampleHost.toUpperCase line != "DESCRIÇÃO")).drop 1).drop o ∧
      2 ≤ w.length ∧ some "ITEM1" = (deskew w)[1]? ∧ some "CEST1" = (deskew w)[3]? ∧
      (2 ≤ (deskew w).length → ∃ item, some "ITEM1" = some item) ∧
      ((∃ cest, some "CEST1" = some cest) ↔ 4 ≤ (deskew w).length) :=
  parseSegment_fields exampleHost
    ["DESCRIÇÃO", "", "ITEM1", "", "CEST1", "1.1", "", "some", "1.2"]
    [⟨some "ITEM1", some "CEST1", ["1.1"], "some", 6⟩, ⟨some "1.2", none, [], "", 3⟩]
    (by decide) ⟨some "ITEM1", some "CEST1", ["1.1"], "some", 6⟩ (by decide)

/-- Claim C13: `parseSegmentsSummary` keeps the order of the lines and gives one entry for each
line that matches the summary pattern and none for the others, so as many entries as matching
lines; the index of an entry is two decimal digits and its description starts with a capital `A`
to `Z`; a matching line without a line feed is the index, a full stop, white space and the
description; no line gives no entry. A line matches when the summary pattern, as an expression,
matches at its start. -/
theorem parseSegmentsSummary_spec (lines : List String) :
    parseSegmentsSummary lines = lines.filterMap summaryMatch ∧
      (parseSegmentsSummary lines).length
        = (lines.filter (fun line => (summaryMatch line).isSome)).length ∧
      (∀ e ∈ parseSegmentsSummary lines,
        (∃ d1 d2, e.index = ⟨[d1, d2]⟩ ∧ isDigit d1 = true ∧ isDigit d2 = true) ∧
        e.description.data.head?.map isUpper = some true) ∧
      (∀ line e, summaryMatch line = some e → (∀ c ∈ line.data, c ≠ '\n') →
        ∃ ws, ws ≠ [] ∧ (∀ c ∈ ws, isSpace c = true) ∧
          line.data = e.index.data ++ '.' :: ws ++ e.description.data) ∧
      parseSegmentsSummary [] = [] ∧
      (∀ line, (summaryMatch line).isSome = true ↔ Re.testStart summaryRe line = true) := by
  have h1 : parseSegmentsSummary lines = lines.filterMap summaryMatch :=
    filterMap_filter_isSome summaryMatch lines
  refine ⟨h1, by rw [h1]; exact length_filterMap_eq _ _, ?_, ?_, rfl, summaryMatch_isSome_iff⟩
  · intro e he
    rw [h1] at he
    obtain ⟨line, _, hm⟩ := List.mem_filterMap.1 he
    obtain ⟨d1, d2, ws, u, v, more, rest, hd1, hd2, _, _, hu, _, _, _, _, rfl⟩ :=
      summaryMatch_some line e hm
    exact ⟨⟨d1, d2, rfl, hd1, hd2⟩, by simp [hu]⟩
  · intro line e hm hnl
    obtain ⟨d1, d2, ws, u, v, more, rest, _, _, hws, hsp, _, _, _, hrest, hdata, rfl⟩ :=
      summaryMatch_some line e hm
    have hr : rest = [] := by
      cases rest with
      | nil => rfl
      | cons c cs =>
        have hc : c = '\n' := hrest c rfl
        exact absurd hc (hnl c (by rw [hdata]; simp))
    subst hr
    exact ⟨ws, hws, hsp, by rw [hdata]; simp⟩

/-- Claim C13 on four lines, two of which match. -/
theorem parseSegmentsSummary_spec_witness :
    parseSegmentsSummary ["01. Autopeças", "1. Abc", "02.   Bebidas alcoólicas", "03. ab"]
        = [⟨"01", "Autopeças"⟩, ⟨"02", "Bebidas alcoólicas"⟩] ∧
      ∃ ws, ws ≠ [] ∧ (∀ c ∈ ws, isSpace c = true) ∧
        "02.   Bebidas alcoólicas".data = "02".data ++ '.' :: ws ++ "Bebidas alcoólicas".data :=
  ⟨by decide,
    (parseSegmentsSummary_spec []).2.2.2.1 "02.   Bebidas alcoólicas" ⟨"02", "Bebidas alcoólicas"⟩
      (by decide) (by decide)⟩

/-- Claim C14: `blocks` has one entry for each distinct segment description that is located, in
the order of the first places of the descriptions in the summary; when the descriptions of the
summary are pairwise distinct and all located, it has one entry for each, in the order of the
summary. The output `parsed`, when no segment faults, has one entry for each entry of `blocks`. -/
theorem blocks_order (H : Host) (segments lines : List String) :
    (blocks H segments lines).map (fun b => b.segment) =
        (segments.filter (fun s =>
          (lines.drop 1).any (fun line => folded H line == folded H s))).foldl
            (fun ks s => if s ∈ ks then ks else ks ++ [s]) [] ∧
      ((blocks H segments lines).map (fun b => b.segment)).Nodup ∧
      (segments.Nodup →
        (∀ s ∈ segments, (lines.drop 1).any (fun line => folded H line == folded H s) = true) →
        (blocks H segments lines).map (fun b => b.segment) = segments ∧
          (blocks H segments lines).length = segments.length) ∧
      (∀ out, parsed H segments lines = .ok out →
        out.length = (blocks H segments lines).length) := by
  have h := map_segment_blocks H segments lines
  refine ⟨h, by rw [h]; exact nodup_foldl_addKey _ [] List.nodup_nil, fun hnd hall => ?_,
    fun out hout => length_parsedFrom H lines _ out hout⟩
  have hfilter : segments.filter (fun s =>
      (lines.drop 1).any (fun line => folded H line == folded H s)) = segments :=
    List.filter_eq_self.2 hall
  have hmap : (blocks H segments lines).map (fun b => b.segment) = segments := by
    rw [h, hfilter, foldl_addKey_nodup segments [] hnd (by simp)]
    simp
  exact ⟨hmap, by rw [← List.length_map (blocks H segments lines) (fun b => b.segment), hmap]⟩

/-- Claim C14 on three descriptions of which two are located, and on two that are both. -/
theorem blocks_order_witness :
    (blocks exampleHost ["B", "C", "A"] ["x", "A", "a", "B", "b"]).map (fun b => b.segment)
        = ["B", "A"] ∧
      ((blocks exampleHost ["B", "A"] ["x", "A", "a", "B", "b"]).map (fun b => b.segment)
          = ["B", "A"] ∧
        (blocks exampleHost ["B", "A"] ["x", "A", "a", "B", "b"]).length = ["B", "A"].length) :=
  ⟨by decide,
    (blocks_order exampleHost ["B", "A"] ["x", "A", "a", "B", "b"]).2.2.1 (by decide)
      (by decide)⟩

/-- Claim C15: a row consumes `4 + |ncms run| + |description run| - 1` lines, three or more, so the
offset of the row loop grows at each turn; the loop ends on every input, and with `n ≥ 2` lines
after the header `parseSegment` returns rows, `⌈n / 3⌉` at most. -/
theorem parseSegment_rows_bound (H : Host) (lines : List String) :
    (∀ w row, takeSingleTableRow w = some row →
      row.skip = 4 + (ncmsRun (deskew w)).length + (descriptionRun (deskew w)).length - 1 ∧
        3 ≤ row.skip) ∧
      parseSegment H lines ≠ .error .fuel ∧
      (2 ≤ ((lines.dropWhile (fun line => H.toUpperCase line != "DESCRIÇÃO")).drop 1).length →
        ∃ rows, parseSegment H lines = .ok rows ∧
          rows.length ≤
            (((lines.dropWhile (fun line => H.toUpperCase line != "DESCRIÇÃO")).drop 1).length
              + 2) / 3) := by
  refine ⟨fun w row h => ⟨skip_eq w row h, skip_ge_three w row h⟩,
    parseSegment_ne_fuel H lines, fun h2 => ?_⟩
  unfold parseSegment
  simp only []
  generalize (lines.dropWhile (fun line => H.toUpperCase line != "DESCRIÇÃO")).drop 1 = body
    at h2 ⊢
  rw [if_neg (by omega)]
  cases hrow : takeSingleTableRow body with
  | none =>
    have := (takeSingleTableRow_eq_none body).1 hrow
    omega
  | some row =>
    obtain ⟨out, hout⟩ := rowLoop_fuel body.length body row.skip [row] (by omega)
    have hlen := rowLoop_length _ _ _ _ _ hout
    have h3 := skip_ge_three _ row hrow
    refine ⟨out, hout, ?_⟩
    rw [List.length_singleton] at hlen
    omega

/-- Claim C15 on five lines after the header: at most two rows. -/
theorem parseSegment_rows_bound_witness :
    ∃ rows, parseSegment exampleHost ["DESCRIÇÃO", "", "ITEM1", "", "CEST1", "1.1"] = .ok rows ∧
      rows.length ≤ (5 + 2) / 3 :=
  (parseSegment_rows_bound exampleHost ["DESCRIÇÃO", "", "ITEM1", "", "CEST1", "1.1"]).2.2
    (by decide)

/-- Claim C16: the description of every row `parseSegment` returns is the non-empty lines of the
description run of its window joined by single spaces, with `.replace(/\s{2,}/g, ' ')` applied;
it has no two adjacent white-space characters, and no line of the description run fully matches
`(\d+\.\d+)+`. The replacement keeps every character that is no white space, keeps a maximal run
of one white-space character and puts one space for a maximal run of two or more. -/
theorem parseSegment_descriptions (H : Host) (lines : List String) (rows : List TableRow)
    (h : parseSegment H lines = .ok rows) (row : TableRow) (hrow : row ∈ rows) :
    (∃ o w,
      w = ((lines.dropWhile (fun line => H.toUpperCase line != "DESCRIÇÃO")).drop 1).drop o ∧
      takeSingleTableRow w = some row ∧
      row.description = collapseSpaces
        (" ".intercalate ((descriptionRun (deskew w)).filter (fun line => line ≠ ""))) ∧
      List.Chain' (fun x y => ¬ (isSpace x = true ∧ isSpace y = true)) row.description.data ∧
      ∀ line ∈ descriptionRun (deskew w), isMarker line = false) ∧
    (∀ c cs, isSpace c = false → collapse false (c :: cs) = c :: collapse false cs) ∧
    (∀ run rest, run ≠ [] → (∀ c ∈ run, isSpace c = true) →
      (∀ c, rest.head? = some c → isSpace c = false) →
      collapse false (run ++ rest)
        = (if 2 ≤ run.length then [' '] else run) ++ collapse false rest) := by
  refine ⟨?_, collapse_cons_of_not_space, collapse_run⟩
  obtain ⟨o, ho⟩ := parseSegment_rows H lines rows h row hrow
  refine ⟨o, _, rfl, ho, ?_⟩
  have hf : ∀ ds : List String,
      ds.filter (fun line => line.length != 0) = ds.filter (fun line => line ≠ "") := by
    intro ds
    congr 1
    funext s
    by_cases hs : s = ""
    · subst hs; rfl
    · have h1 : s.length ≠ 0 := fun h0 => hs ((length_eq_zero_iff s).1 h0)
      simp [hs, h1]
  rw [takeSingleTableRow_eq _ (length_of_takeSingleTableRow _ row ho)] at ho
  cases Option.some.inj ho
  refine ⟨?_, chain_collapse false _, fun line hl => not_isMarker_of_mem_descriptionRun _ line hl⟩
  show collapseSpaces (join _) = _
  rw [hf, join_eq_intercalate]

/-- Claim C16 on a row whose description lines hold runs of spaces. -/
theorem parseSegment_descriptions_witness :
    ∃ o w, w = ((["DESCRIÇÃO", "", "ITEM1", "", "CEST1", "1.1", "a  b", "", "c ", " d",
        "1.2"].dropWhile (fun line => exampleHost.toUpperCase line != "DESCRIÇÃO")).drop 1).drop o ∧
      takeSingleTableRow w = some ⟨some "ITEM1", some "CEST1", ["1.1"], "a b c d", 8⟩ ∧
      "a b c d" = collapseSpaces
        (" ".intercalate ((descriptionRun (deskew w)).filter (fun line => line ≠ ""))) ∧
      List.Chain' (fun x y => ¬ (isSpace x = true ∧ isSpace y = true)) "a b c d".data ∧
      ∀ line ∈ descriptionRun (deskew w), isMarker line = false :=
  (parseSegment_descriptions exampleHost
    ["DESCRIÇÃO", "", "ITEM1", "", "CEST1", "1.1", "a  b", "", "c ", " d", "1.2"]
    [⟨some "ITEM1", some "CEST1", ["1.1"], "a b c d", 8⟩, ⟨some "1.2", none, [], "", 3⟩]
    (by decide) ⟨some "ITEM1", some "CEST1", ["1.1"], "a b c d", 8⟩ (by decide)).1

/-- Claim C17: when the lines after the header do not begin with two empty strings, every row
`parseSegment` returns after the first comes from a window that is not de-skewed, and its item
is line 1 of that window, a line that fully matches `(\d+\.\d+)+`. -/
theorem parseSegment_later_items (H : Host) (lines : List String) (rows : List TableRow)
    (h : parseSegment H lines = .ok rows)
    (hb : ¬ (((lines.dropWhile (fun line => H.toUpperCase line != "DESCRIÇÃO")).drop 1)[0]?
        = some "" ∧
      ((lines.dropWhile (fun line => H.toUpperCase line != "DESCRIÇÃO")).drop 1)[1]?
        = some "")) :
    ∀ r ∈ rows.tail, ∃ o w m,
      w = ((lines.dropWhile (fun line => H.toUpperCase line != "DESCRIÇÃO")).drop 1).drop o ∧
      takeSingleTableRow w = some r ∧ ¬ (w[0]? = some "" ∧ w[1]? = some "") ∧
      w[1]? = some m ∧ r.item = some m ∧ isMarker m = true := by
  unfold parseSegment at h
  simp only [] at h
  generalize (lines.dropWhile (fun line => H.toUpperCase line != "DESCRIÇÃO")).drop 1 = body
    at h hb ⊢
  by_cases h0 : body.length = 0
  · rw [if_pos h0] at h
    cases h
    simp
  · rw [if_neg h0] at h
    cases hrow : takeSingleTableRow body with
    | none =>
      rw [hrow] at h
      cases h
    | some row =>
      rw [hrow] at h
      have hd : deskew (body.drop 0) = body.drop 0 := by
        rw [List.drop_zero]
        unfold deskew
        rw [if_neg hb]
      obtain ⟨new, hout, hnew⟩ := rowLoop_items _ body row.skip [row] rows
        (fun x hx => next_window_marker body 0 row (by rw [List.drop_zero]; exact hrow) hd x
          (by rw [Nat.zero_add]; exact hx)) h
      intro r hr
      rw [hout] at hr
      simp only [List.singleton_append, List.tail_cons] at hr
      obtain ⟨o, m, h1, h2, h3, h4, h5⟩ := hnew r hr
      have hw1 : (body.drop o)[1]? = some m := by
        rw [List.getElem?_drop]
        exact h3
      refine ⟨o, _, m, rfl, h1, ?_, hw1, h4, h5⟩
      rintro ⟨_, hc⟩
      rw [hw1] at hc
      cases Option.some.inj hc
      exact absurd h5 (by decide)

/-- Claim C17 on a span of two rows. -/
theorem parseSegment_later_items_witness :
    ∃ o w m,
      w = ((["DESCRIÇÃO", "", "ITEM1", "", "CEST1", "1.1", "", "some", "1.2", "", "CEST2", "7",
          "x"].dropWhile (fun line => exampleHost.toUpperCase line != "DESCRIÇÃO")).drop 1).drop o ∧
      takeSingleTableRow w = some ⟨some "1.2", some "CEST2", ["7"], "x", 5⟩ ∧
      ¬ (w[0]? = some "" ∧ w[1]? = some "") ∧
      w[1]? = some m ∧ some "1.2" = some m ∧ isMarker m = true :=
  parseSegment_later_items exampleHost
    ["DESCRIÇÃO", "", "ITEM1", "", "CEST1", "1.1", "", "some", "1.2", "", "CEST2", "7", "x"]
    [⟨some "ITEM1", some "CEST1", ["1.1"], "some", 6⟩, ⟨some "1.2", some "CEST2", ["7"], "x", 5⟩]
    (by decide) (by decide) ⟨some "1.2", some "CEST2", ["7"], "x", 5⟩ (by decide)

/-- Claim C18: the trim count of a span of `L` lines is at most `min 4 (L - 1)`, and 0 when the
span is empty; trimming takes at most four lines off the end and keeps a span that is not empty
not empty. -/
theorem trim_count_bounds (lines : List String) (b : Block) :
    numberOfLinesToSkip (takeRight 5 (slice lines b.start b.stop)).reverse
        ≤ min 4 ((slice lines b.start b.stop).length - 1) ∧
      ((slice lines b.start b.stop).length = 0 →
        numberOfLinesToSkip (takeRight 5 (slice lines b.start b.stop)).reverse = 0) ∧
      b.stop - 4 ≤ (revise lines b).stop ∧ (revise lines b).stop ≤ b.stop ∧
      (b.start < b.stop → b.start < (revise lines b).stop) := by
  have h1 := numberOfLinesToSkip_le (takeRight 5 (slice lines b.start b.stop)).reverse
  rw [List.length_reverse, length_takeRight] at h1
  have h2 := length_slice lines b.start b.stop
  refine ⟨by omega, fun h0 => by omega, ?_, Nat.sub_le _ _, fun hlt => ?_⟩
  · show b.stop - 4 ≤ b.stop - numberOfLinesToSkip _
    omega
  · show b.start < b.stop - numberOfLinesToSkip _
    omega

/-- Claim C18 on a span of two lines that ends with "see Anexo II" and on an empty span. -/
theorem trim_count_bounds_witness :
    numberOfLinesToSkip (takeRight 5 (slice ["x", "A", "y", "see Anexo II", "B"] 2 4)).reverse = 1 ∧
      2 < (revise ["x", "A", "y", "see Anexo II", "B"] ⟨"A", 2, 4⟩).stop ∧
      numberOfLinesToSkip (takeRight 5 (slice ["x", "A", "y", "see Anexo II", "B"] 4 4)).reverse
        = 0 :=
  ⟨by decide,
    (trim_count_bounds ["x", "A", "y", "see Anexo II", "B"] ⟨"A", 2, 4⟩).2.2.2.2 (by decide),
    (trim_count_bounds ["x", "A", "y", "see Anexo II", "B"] ⟨"A", 4, 4⟩).2.1 (by decide)⟩

/-- Claim C19: for a span of five lines or more whose last line contains "Anexo ", the trim count
is 4 whatever the other lines, and the trimmed end is the raw end less 4; the pattern matches
exactly the texts that contain "Anexo ". -/
theorem trim_count_anexo (lines : List String) (block : Block) (last : String)
    (hlen : block.start + 5 ≤ block.stop) (hlast : lines[block.stop - 1]? = some last)
    (h : "Anexo ".data <:+: last.data) :
    numberOfLinesToSkip (takeRight 5 (slice lines block.start block.stop)).reverse = 4 ∧
      (revise lines block).stop = block.stop - 4 ∧
      ∀ text : String, Re.test anexoRe text = true ↔ "Anexo ".data <:+: text.data := by
  obtain ⟨rest, hr, hr4⟩ := examined_eq_cons lines block last hlen hlast
  have hc : numberOfLinesToSkip (takeRight 5 (slice lines block.start block.stop)).reverse = 4 := by
    rw [hr, numberOfLinesToSkip_cons last rest h, hr4]
  refine ⟨hc, ?_, test_anexoRe⟩
  show block.stop - numberOfLinesToSkip _ = _
  rw [hc]

/-- Claim C19 on a span of five lines whose last line is "ver Anexo X". -/
theorem trim_count_anexo_witness :
    (numberOfLinesToSkip
        (takeRight 5 (slice ["x", "A", "a", "b", "c", "d", "ver Anexo X", "B"] 2 7)).reverse = 4 ∧
      (revise ["x", "A", "a", "b", "c", "d", "ver Anexo X", "B"] ⟨"A", 2, 7⟩).stop = 7 - 4 ∧
      ∀ text : String, Re.test anexoRe text = true ↔ "Anexo ".data <:+: text.data) :=
  trim_count_anexo ["x", "A", "a", "b", "c", "d", "ver Anexo X", "B"] ⟨"A", 2, 7⟩ "ver Anexo X"
    (by decide) (by decide) (by decide)

/-- Claim C20: `normalizeNcms` is idempotent, and its result holds no empty string. -/
theorem normalizeNcms_idempotent (xs : List String) :
    normalizeNcms (normalizeNcms xs) = normalizeNcms xs ∧ "" ∉ normalizeNcms xs := by
  rcases normalizeNcms_cases xs with h | ⟨y, ys, hf, hc, h⟩ | ⟨y, ys, hf, hc, h⟩
  · rw [h]
    exact ⟨by decide, by simp⟩
  · have hy : y ≠ "" := by
      have : y ∈ xs.filter (fun ncm => ncm.length != 0) := by rw [hf]; simp
      have := (List.mem_filter.1 this).2
      intro h0
      rw [h0] at this
      exact absurd this (by decide)
    have hj : join (y :: ys) ≠ "" := join_ne_empty y ys hy
    have hjc : Re.testStart capitulosRe (join (y :: ys)) = true := by
      rw [testStart_capitulosRe] at hc ⊢
      exact hc.trans (join_cons_data y ys)
    rw [h]
    constructor
    · have hlen : ((join (y :: ys)).length != 0) = true := by
        simpa [length_eq_zero_iff] using hj
      unfold normalizeNcms
      simp [List.filter_cons, hlen, hjc, join]
    · simpa using Ne.symm hj
  · rw [h]
    have hall : ∀ z ∈ y :: ys, (z.length != 0) = true := by
      intro z hz
      rw [← hf] at hz
      exact (List.mem_filter.1 hz).2
    constructor
    · apply normalizeNcms_of_filter_eq
      · rw [List.filter_eq_self]
        exact hall
      · exact hc
    · intro h0
      exact absurd (hall "" h0) (by decide)

end NcmCest
